import Mathlib

/-!
Verification development for the annotation-driven tree transformation engine of
urdf2mjcf.  The Python sources `mjcf_postprocess.py`, `xml_utils.py` and
`urdf_preprocess.py` operate on `xml.etree.ElementTree` trees; we embed the
element type and every relevant function as executable Lean definitions and
prove the specified properties about them.
-/

/-- Shallow embedding of `xml.etree.ElementTree.Element`: a tag, an ordered
attribute mapping (Python dict: keys unique, insertion ordered), optional text
content, and the ordered list of child elements. -/
inductive Elem : Type where
  | mk (tag : String) (attrib : List (String × String)) (text : Option String)
       (children : List Elem)

def Elem.tag : Elem → String
  | .mk t _ _ _ => t

def Elem.attrib : Elem → List (String × String)
  | .mk _ a _ _ => a

def Elem.text : Elem → Option String
  | .mk _ _ tx _ => tx

def Elem.children : Elem → List Elem
  | .mk _ _ _ cs => cs

def Elem.setChildren : Elem → List Elem → Elem
  | .mk t a tx _, cs => .mk t a tx cs

/- Structural size of an element; used as a termination measure. -/
mutual
def sizeE : Elem → Nat
  | .mk _ _ _ cs => 1 + sizeL cs
def sizeL : List Elem → Nat
  | [] => 0
  | c :: cs => sizeE c + sizeL cs
end

theorem sizeE_pos (e : Elem) : 0 < sizeE e := by
  cases e with
  | mk t a tx cs => simp [sizeE]

theorem sizeL_children_lt_cons (c : Elem) (cs : List Elem) :
    sizeL c.children < sizeL (c :: cs) := by
  cases c with
  | mk t a tx ccs =>
    simp [sizeL, sizeE, Elem.children]
    omega

theorem sizeL_tail_lt_cons (c : Elem) (cs : List Elem) : sizeL cs < sizeL (c :: cs) := by
  have := sizeE_pos c
  simp [sizeL]
  omega

theorem sizeE_head_lt_cons (c : Elem) (cs : List Elem) : sizeE c < 1 + sizeL (c :: cs) := by
  simp [sizeL]
  omega

theorem sizeL_children_lt (e : Elem) : sizeL e.children < sizeE e := by
  cases e with
  | mk t a tx cs => simp [sizeE, Elem.children]

/-! ### Python dict operations on the attribute mapping

`Element.attrib` is a Python dict: string keys, unique, insertion-ordered.
We represent it as an association list and give the dict primitives. -/

/-- `d.get(k)` / `Element.get`: value of the first binding of `k`, if any. -/
def dictGet (d : List (String × String)) (k : String) : Option String :=
  (d.find? (fun kv => kv.1 == k)).map (fun kv => kv.2)

/-- `d[k] = v`: overwrite in place when the key is present (keeping its
position), otherwise append the new binding at the end. -/
def dictSet : List (String × String) → String → String → List (String × String)
  | [], k, v => [(k, v)]
  | kv :: rest, k, v => if kv.1 == k then (k, v) :: rest else kv :: dictSet rest k v

/-- `del d[k]`: remove the binding of `k`. -/
def dictDel : List (String × String) → String → List (String × String)
  | [], _ => []
  | kv :: rest, k => if kv.1 == k then rest else kv :: dictDel rest k

def Elem.get (e : Elem) (k : String) : Option String := dictGet e.attrib k

def Elem.set (e : Elem) (k v : String) : Elem :=
  .mk e.tag (dictSet e.attrib k v) e.text e.children

def Elem.del (e : Elem) (k : String) : Elem :=
  .mk e.tag (dictDel e.attrib k) e.text e.children

/-- `target.set(k, v)` folded over a pair list, in order. -/
def setAll (e : Elem) (attrs : List (String × String)) : Elem :=
  attrs.foldl (fun t kv => t.set kv.1 kv.2) e

theorem dictGet_nil (k : String) : dictGet [] k = none := rfl

theorem dictGet_cons (kv : String × String) (d : List (String × String)) (k : String) :
    dictGet (kv :: d) k = if kv.1 == k then some kv.2 else dictGet d k := by
  simp only [dictGet, List.find?]
  by_cases h : kv.1 == k <;> simp [h]

/-- Pointwise description of Python dict assignment. -/
theorem dictGet_dictSet (d : List (String × String)) (k v k' : String) :
    dictGet (dictSet d k v) k' = if k = k' then some v else dictGet d k' := by
  induction d with
  | nil => by_cases h : k = k' <;> simp [dictSet, dictGet_cons, dictGet_nil, h]
  | cons kv rest ih =>
    by_cases hk : kv.1 = k
    · by_cases h : k = k' <;> simp [dictSet, dictGet_cons, hk, h, ih]
    · by_cases h : kv.1 = k'
      · have h2 : ¬ k = k' := fun he => hk (h.trans he.symm)
        have h3 : ¬ k' = k := fun he => h2 he.symm
        simp [dictSet, dictGet_cons, hk, h, h2, h3]
      · by_cases h2 : k = k'
        · subst h2
          simp [dictSet, dictGet_cons, hk, h, ih]
        · simp [dictSet, dictGet_cons, hk, h, h2, ih]

/-- Dict assignment of an existing key leaves the key list unchanged; a new key
is appended at the end. -/
theorem keys_dictSet (d : List (String × String)) (k v : String) :
    (dictSet d k v).map Prod.fst =
      if (dictGet d k).isSome then d.map Prod.fst else d.map Prod.fst ++ [k] := by
  induction d with
  | nil => simp [dictSet, dictGet_nil]
  | cons kv rest ih =>
    by_cases hk : kv.1 = k
    · simp [dictSet, dictGet_cons, hk, ih]
    · simp only [dictSet, beq_iff_eq, hk, if_false, List.map_cons, dictGet_cons, ih]
      by_cases h2 : (dictGet rest k).isSome <;> simp [h2]

/-- A key in the key list has a successful dict lookup. -/
theorem mem_keys_isSome_dictGet (d : List (String × String)) (k : String)
    (h : k ∈ d.map Prod.fst) : (dictGet d k).isSome := by
  induction d with
  | nil => simp at h
  | cons kv rest ih =>
    by_cases hk : kv.1 = k
    · simp [dictGet_cons, hk]
    · simp only [List.map_cons, List.mem_cons] at h
      rcases h with h1 | h1
      · exact absurd h1.symm hk
      · simp [dictGet_cons, hk, ih h1]

/-- A successful dict lookup means the key occurs in the key list. -/
theorem dictGet_isSome_mem (d : List (String × String)) (k : String)
    (h : (dictGet d k).isSome) : k ∈ d.map Prod.fst := by
  induction d with
  | nil => simp [dictGet_nil] at h
  | cons kv rest ih =>
    by_cases hk : kv.1 = k
    · simp [hk]
    · simp only [dictGet_cons, beq_iff_eq, hk, if_false] at h
      simp [ih h]

/-- Pointwise description of Python dict deletion (keys unique). -/
theorem dictGet_dictDel (d : List (String × String)) (k k' : String)
    (hnd : (d.map Prod.fst).Nodup) :
    dictGet (dictDel d k) k' = if k = k' then none else dictGet d k' := by
  induction d with
  | nil => by_cases h : k = k' <;> simp [dictDel, dictGet_nil, h]
  | cons kv rest ih =>
    simp only [List.map_cons, List.nodup_cons] at hnd
    by_cases hk : kv.1 = k
    · by_cases h : k = k'
      · subst h
        subst hk
        simp only [dictDel, beq_self_eq_true, if_true, if_pos rfl]
        cases hg : dictGet rest kv.1 with
        | none => rfl
        | some v => exact absurd (dictGet_isSome_mem rest kv.1 (by simp [hg])) hnd.1
      · simp [dictDel, hk, dictGet_cons, h]
    · by_cases h : kv.1 = k'
      · have h2 : ¬ k = k' := fun he => hk (h.trans he.symm)
        have h3 : ¬ k' = k := fun he => h2 he.symm
        simp [dictDel, dictGet_cons, hk, h, h2, h3]
      · by_cases h2 : k = k'
        · subst h2
          simp [dictDel, dictGet_cons, hk, h, ih hnd.2]
        · simp [dictDel, dictGet_cons, hk, h, h2, ih hnd.2]

/-- Deletion never enlarges the key list: the result keys are the original ones
with the deleted key removed. -/
theorem keys_dictDel (d : List (String × String)) (k : String) :
    (dictDel d k).map Prod.fst = (d.map Prod.fst).erase k := by
  induction d with
  | nil => simp [dictDel]
  | cons kv rest ih =>
    by_cases hk : kv.1 = k <;> simp [dictDel, hk, List.erase_cons, ih]

theorem nodup_keys_dictSet (d : List (String × String)) (k v : String)
    (hnd : (d.map Prod.fst).Nodup) : ((dictSet d k v).map Prod.fst).Nodup := by
  rw [keys_dictSet]
  by_cases h : (dictGet d k).isSome
  · simp [h, hnd]
  · have hm : k ∉ d.map Prod.fst := fun hmem => h (mem_keys_isSome_dictGet d k hmem)
    simp [h, List.nodup_append, hnd, hm]

theorem nodup_keys_dictDel (d : List (String × String)) (k : String)
    (hnd : (d.map Prod.fst).Nodup) : ((dictDel d k).map Prod.fst).Nodup := by
  rw [keys_dictDel]
  exact hnd.erase k

/-! ### Pattern matcher (xml_utils.py) -/

/- Strict descendants of a node in document (preorder) order, as returned by
`root.findall(".//...")` before tag/attribute filtering. -/
mutual
def descendants : Elem → List Elem
  | .mk _ _ _ cs => descendantsList cs
def descendantsList : List Elem → List Elem
  | [] => []
  | c :: cs => c :: descendants c ++ descendantsList cs
end

/- Shell-style glob matching of `fnmatch.fnmatch(value, pattern)` restricted to
the `*` and `?` metacharacters (character classes `[...]` are not modelled; a
`[` is treated as a literal character).  `*` matches any run of characters,
`?` exactly one; matching is case sensitive and anchored at both ends. -/
mutual
def globMatch : List Char → List Char → Bool
  | [], v => v.isEmpty
  | p :: ps, v =>
    if p == '*' then globStar ps v
    else
      match v with
      | [] => false
      | c :: vs => if p == '?' then globMatch ps vs else (p == c) && globMatch ps vs
  termination_by ps v => (ps.length, 0, v.length)
  decreasing_by
  · apply Prod.Lex.left
    simp
  · apply Prod.Lex.left
    simp
  · apply Prod.Lex.left
    simp
def globStar (ps : List Char) : List Char → Bool
  | [] => globMatch ps []
  | c :: vs => globMatch ps (c :: vs) || globStar ps vs
  termination_by v => (ps.length, 1, v.length)
  decreasing_by
  · apply Prod.Lex.right
    apply Prod.Lex.left
    omega
  · apply Prod.Lex.right
    apply Prod.Lex.left
    omega
  · apply Prod.Lex.right
    apply Prod.Lex.right
    simp
end

/-- `fnmatch.fnmatch(value, pattern)` on strings. -/
def fnmatchStr (value pat : String) : Bool := globMatch pat.toList value.toList

/-- From `find_matching_elements`: `any('*' in v for v in elem.attrib.values())`. -/
def hasWildcard (attrs : List (String × String)) : Bool :=
  attrs.any (fun kv => kv.2.toList.contains '*')

/-- The single-quote character. -/
def squote : Char := Char.ofNat 39

/-- The double-quote character. -/
def dquote : Char := Char.ofNat 34

/-- XPath attribute conditions `[@name='value']`: every pattern attribute
present on the candidate with exactly the pattern value. -/
def attrsMatchExact (pat : List (String × String)) (c : Elem) : Bool :=
  pat.all (fun kv => c.get kv.1 == some kv.2)

/-- Whether ElementTree accepts the XPath query the exact path builds: the
source joins one `@name='value'` condition per attribute with `' and '` into
a single bracket, and ElementTree's limited XPath understands only a lone
`[@name='value']` predicate, so the query parses only when the pattern has
exactly one attribute; the value is interpolated between single quotes, so a
single quote inside it also breaks the predicate.  (Tag and attribute names
are XML names - the XML parser guarantees it - and never break the query.) -/
def xpathExactOk (attrs : List (String × String)) : Bool :=
  match attrs with
  | [kv] => !(kv.2.toList.contains squote)
  | _ => false

/-- Attribute check of `find_matching_elements_with_wildcards`: every pattern
attribute must be present on the candidate and its value must fnmatch the
pattern. -/
def attrsMatchGlob (pat : List (String × String)) (c : Elem) : Bool :=
  pat.all (fun kv =>
    match c.get kv.1 with
    | none => false
    | some v => fnmatchStr v kv.2)

/-- `find_matching_elements_with_wildcards(root, elem)`. -/
def findMatchingElementsWithWildcards (root pat : Elem) : List Elem :=
  (descendants root).filter (fun c => c.tag == pat.tag && attrsMatchGlob pat.attrib c)

/-- `find_matching_elements(root, elem)`: empty pattern attribute set returns
no matches; with no `*` in any pattern value the built XPath query runs under
`try/except` - a query ElementTree rejects (two or more attributes, or a
single quote in a value) returns no matches, an accepted one selects the
descendants with the pattern tag carrying the attribute value; otherwise
wildcard matching. -/
def findMatchingElements (root pat : Elem) : List Elem :=
  if pat.attrib.isEmpty then []
  else if !hasWildcard pat.attrib then
    if xpathExactOk pat.attrib then
      (descendants root).filter (fun c => c.tag == pat.tag && attrsMatchExact pat.attrib c)
    else []
  else findMatchingElementsWithWildcards root pat

/-- The per-element predicate deciding membership in `findMatchingElements`. -/
def findPred (pat : Elem) (c : Elem) : Bool :=
  !pat.attrib.isEmpty &&
    (if hasWildcard pat.attrib then c.tag == pat.tag && attrsMatchGlob pat.attrib c
     else xpathExactOk pat.attrib && (c.tag == pat.tag && attrsMatchExact pat.attrib c))

theorem findMatchingElements_eq_filter (root pat : Elem) :
    findMatchingElements root pat = (descendants root).filter (findPred pat) := by
  by_cases h0 : pat.attrib.isEmpty
  · simp [findMatchingElements, findPred, h0, List.filter_eq_nil_iff]
  · by_cases hw : hasWildcard pat.attrib
    · simp only [findMatchingElements, findMatchingElementsWithWildcards, h0, hw,
        Bool.not_true, if_false, Bool.false_eq_true]
      exact List.filter_congr (fun x _ => by simp [findPred, h0, hw])
    · by_cases hx : xpathExactOk pat.attrib
      · simp only [findMatchingElements, h0, hw, hx, Bool.not_false, if_true,
          Bool.false_eq_true, if_false]
        exact List.filter_congr (fun x _ => by simp [findPred, h0, hw, hx])
      · have hnil : (descendants root).filter (findPred pat) = [] := by
          rw [List.filter_eq_nil_iff]
          intro x hxm
          simp [findPred, h0, hw, hx]
        simp [findMatchingElements, h0, hw, hx, hnil]

/-! ### Operation parser (mjcf_postprocess.py, `_parse_attr_string`,
`_parse_conditional_replacement`, `_parse_custom_syntax`) -/

/-- Python whitespace for `str.strip()` (the ASCII set). -/
def isPySpace (c : Char) : Bool :=
  c == ' ' || c == '\t' || c == '\n' || c == '\r' || c == Char.ofNat 11 || c == Char.ofNat 12

/-- Python `s.strip()`: drop whitespace from both ends. -/
def pyStrip (s : String) : String :=
  String.mk (((s.toList.dropWhile isPySpace).reverse.dropWhile isPySpace).reverse)

/-- Python regex `\w` (the sources only use ASCII keys). -/
def isWordChar (c : Char) : Bool := c.isAlphanum || c == '_'

/-- Lazy tail of `(['\x22])(.*?)\2`: the value runs to the first closing quote;
`.` does not match a newline, so a newline before the closing quote fails the
match attempt. -/
def takeValue (q : Char) : List Char → Option (List Char × List Char)
  | [] => none
  | c :: cs =>
    if c == q then some ([], cs)
    else if c == '\n' then none
    else (takeValue q cs).map (fun r => (c :: r.1, r.2))

/-- Quote-delimited value part of one match attempt. -/
def matchQuoted (key : List Char) : List Char → Option (String × String × List Char)
  | [] => none
  | q :: r =>
    if q == squote || q == dquote then
      (takeValue q r).map (fun v => (String.mk key, String.mk v.1, v.2))
    else none

/-- One attempt of the regex `(\w+):?=(['\x22])(.*?)\2` anchored at the current
position: a maximal nonempty run of word characters, `=` or `:=`, then a
quote-delimited value.  Returns the key, the value and the rest of the input
after the match. -/
def matchPairAt (s : List Char) : Option (String × String × List Char) :=
  let key := s.takeWhile isWordChar
  if key.isEmpty then none
  else
    match s.drop key.length with
    | '=' :: r => matchQuoted key r
    | ':' :: '=' :: r => matchQuoted key r
    | _ => none

/-- `re.findall` scanning: attempt a match at each position, resuming after the
end of each successful (non-overlapping) match.  Every step consumes at least
one character, so the length of the input is enough fuel. -/
def scanPairs : Nat → List Char → List (String × String)
  | 0, _ => []
  | _ + 1, [] => []
  | fuel + 1, c :: rest =>
    match matchPairAt (c :: rest) with
    | some kvr => (kvr.1, kvr.2.1) :: scanPairs fuel kvr.2.2
    | none => scanPairs fuel rest

/-- `_parse_attr_string`: collect the regex matches into a dict, later
occurrences of a duplicate key overwriting earlier ones (with a warning). -/
def parseAttrString (attrStr : String) : List (String × String) :=
  (scanPairs attrStr.length attrStr.toList).foldl (fun d kv => dictSet d kv.1 kv.2) []

/-- Python `s.split(':', 1)` when it yields two parts (there is a colon). -/
def splitFirstColon (s : String) : Option (String × String) :=
  match s.toList.findIdx? (fun c => c == ':') with
  | none => none
  | some i => some (String.mk (s.toList.take i), String.mk (s.toList.drop (i + 1)))

/-- `_parse_conditional_replacement`: split at the first colon (no colon raises
`ValueError`, caught and reported as `none`), parse both sides with the
key=value grammar, and drop the whole operation when either side yields no
pairs. -/
def parseConditionalReplacement (attrString : String) :
    Option (List (String × String) × List (String × String)) :=
  match splitFirstColon attrString with
  | none => none
  | some lr =>
    let conditions := parseAttrString (pyStrip lr.1)
    let replacements := parseAttrString (pyStrip lr.2)
    if conditions.isEmpty then none
    else if replacements.isEmpty then none
    else some (conditions, replacements)

/-- The four typed operations of the annotation language. -/
inductive Op : Type where
  | inject (attrs : List (String × String))
  | replace (attrs : List (String × String))
  | conditionalReplace (conditions replacements : List (String × String))
  | injectChildren (matchAttrs : List (String × String))

/-- `_parse_custom_syntax(elem)`: decode the four reserved attributes, in
order.  A reserved attribute that is absent or empty (Python falsiness)
contributes nothing; an attribute string yielding no pairs is dropped; a
`replace_attrs` value containing any `:` is routed to the conditional
replacement parser. -/
def parseCustomSyntax (elem : Elem) : List Op :=
  let ops1 :=
    match elem.get "inject_attr" with
    | some s =>
      if s == "" then []
      else if (parseAttrString s).isEmpty then [] else [Op.inject (parseAttrString s)]
    | none => []
  let ops2 :=
    match elem.get "inject_attrs" with
    | some s =>
      if s == "" then []
      else if (parseAttrString s).isEmpty then [] else [Op.inject (parseAttrString s)]
    | none => []
  let ops3 :=
    match elem.get "replace_attrs" with
    | some s =>
      if s == "" then []
      else if s.toList.contains ':' then
        match parseConditionalReplacement s with
        | some cr => [Op.conditionalReplace cr.1 cr.2]
        | none => []
      else if (parseAttrString s).isEmpty then [] else [Op.replace (parseAttrString s)]
    | none => []
  let ops4 :=
    match elem.get "inject_children" with
    | some s =>
      if s == "" then []
      else if (parseAttrString s).isEmpty then [] else [Op.injectChildren (parseAttrString s)]
    | none => []
  ops1 ++ ops2 ++ ops3 ++ ops4

/-! ### Operation applier (`_apply_custom_operations`) -/

/-- One operation applied to one matched target node.  `inject` always sets;
`replace` sets only already-present attributes, skipping the rest; the
conditional replacement checks all conditions against the current attributes,
and only on full success removes the condition keys and then sets the
replacements; an `inject_children` operation is not handled here (the
dispatcher consumes it before this point). -/
def applyOp (target : Elem) (op : Op) : Elem :=
  match op with
  | .inject attrs => attrs.foldl (fun t kv => t.set kv.1 kv.2) target
  | .replace attrs =>
    attrs.foldl (fun t kv => if (t.get kv.1).isSome then t.set kv.1 kv.2 else t) target
  | .conditionalReplace conditions replacements =>
    if conditions.all (fun kv => target.get kv.1 == some kv.2) then
      let t1 := conditions.foldl
        (fun t kv => if (t.get kv.1).isSome then t.del kv.1 else t) target
      replacements.foldl (fun t kv => t.set kv.1 kv.2) t1
    else target
  | .injectChildren _ => target

/-- The operation list of one annotation element applied in order. -/
def applyOps (target : Elem) (ops : List Op) : Elem := ops.foldl applyOp target

/-! ### Tree walker / dispatcher (`post_process_inject_custom_mujoco_elements`) -/

/-- The reserved operation attribute names removed from the matching pattern. -/
def reservedAttrs : List String :=
  ["inject_attr", "inject_attrs", "replace_attrs", "inject_children"]

/- In-place mutation of every matching element, as performed through the element
references returned by the matcher: each strict descendant satisfying the
predicate (over its own tag/attributes, which none of the mutations below
change on other nodes) is mapped through f, deepest first; children appended by
f are not re-visited, matching the reference lists the source precomputes
before mutating. -/
mutual
def transformDesc (p : Elem → Bool) (f : Elem → Elem) : Elem → Elem
  | .mk t a tx cs => .mk t a tx (transformDescList p f cs)
def transformDescList (p : Elem → Bool) (f : Elem → Elem) : List Elem → List Elem
  | [] => []
  | c :: cs =>
    (if p c then f (transformDesc p f c) else transformDesc p f c)
      :: transformDescList p f cs
end

/- Mutation through a reference located by a path of child indices (contexts and
parents are live element references in the source; we address them by
position). -/
mutual
def mapUnder (g : Elem → Elem) : Elem → List Nat → Elem
  | e, [] => g e
  | e, i :: rest => e.setChildren (mapUnderList g e.children i rest)
  termination_by _ path => (path.length, 0, 0)
  decreasing_by
  · apply Prod.Lex.left
    simp [List.length_cons]
def mapUnderList (g : Elem → Elem) : List Elem → Nat → List Nat → List Elem
  | [], _, _ => []
  | c :: cs, 0, rest => mapUnder g c rest :: cs
  | c :: cs, i + 1, rest => c :: mapUnderList g cs i rest
  termination_by _ i rest => (rest.length, 1, i)
  decreasing_by
  · apply Prod.Lex.right
    apply Prod.Lex.left
    omega
  · apply Prod.Lex.right
    apply Prod.Lex.right
    omega
end

/- Paths (child index sequences) of the strict descendants satisfying a
predicate, in document (preorder) order: the path-valued counterpart of
`findMatchingElements`. -/
mutual
def matchPathsE (p : Elem → Bool) : Elem → List (List Nat)
  | .mk _ _ _ cs => matchPathsL p cs 0
def matchPathsL (p : Elem → Bool) : List Elem → Nat → List (List Nat)
  | [], _ => []
  | c :: cs, i =>
    (if p c then [[i]] else []) ++ (matchPathsE p c).map (fun q => i :: q)
      ++ matchPathsL p cs (i + 1)
end

/-- `root.find(tag) is not None` for direct children. -/
def hasChildTag (root : Elem) (tag : String) : Bool :=
  root.children.any (fun c => c.tag == tag)

/-- `ensure_node_before_worldbody`, creation case: insert the fresh node before
the first `worldbody` child if one exists, else append. -/
def insertBeforeWorldbody (root : Elem) (node : Elem) : Elem :=
  match root.children.findIdx? (fun c => c.tag == "worldbody") with
  | some i => root.setChildren (root.children.take i ++ node :: root.children.drop i)
  | none => root.setChildren (root.children ++ [node])

/-- Mutation through the reference returned by `root.find(tag)`: the first
direct child with that tag. -/
def updateFirstTagged : List Elem → String → (Elem → Elem) → List Elem
  | [], _, _ => []
  | c :: cs, tag, g => if c.tag == tag then g c :: cs else c :: updateFirstTagged cs tag g

def updateNamedChild (root : Elem) (tag : String) (g : Elem → Elem) : Elem :=
  root.setChildren (updateFirstTagged root.children tag g)

def Op.isInjectChildren : Op → Bool
  | .injectChildren _ => true
  | _ => false

/-- `next((op for op in custom_operations if op[0] == "inject_children"), None)`. -/
def firstInjectChildren (ops : List Op) : Option (List (String × String)) :=
  match ops.find? Op.isInjectChildren with
  | some (Op.injectChildren m) => some m
  | _ => none

/-- Standard injection into one matched node: copy all fragment attributes onto
the target, then append deep copies of all fragment children. -/
def injectAttrsAndChildren (elem : Elem) (t : Elem) : Elem :=
  let t2 := setAll t elem.attrib
  t2.setChildren (t2.children ++ elem.children)

/-- The no-match fallback of standard injection: reuse the first top-level
child with the fragment tag if one exists (`root.find(elem.tag)`), otherwise
create a new element at the canonical position before `worldbody`
(`ensure_node_before_worldbody`); then copy attributes and append children. -/
def createOrExtendTopLevel (root elem : Elem) : Elem :=
  if hasChildTag root elem.tag then
    updateNamedChild root elem.tag (injectAttrsAndChildren elem)
  else
    insertBeforeWorldbody root (injectAttrsAndChildren elem (Elem.mk elem.tag [] none []))

mutual
/-- `_process_element_recursively(elem, parent_context)` acting on the whole
tree `root`.  Branch order follows the source: (1) an `inject_children`
operation consumes the element, appending deep copies of its children to every
element matching its tag and match attributes within the context (or globally);
(2) an element with other operations has them applied to every element matching
its tag and non-reserved attributes within the context, then its children are
processed under the same context; (3) an element without operations, some
direct child of which carries operations, has those children processed inside
every globally matching parent, plain children being deep-copied into the
parent; (4) otherwise standard injection into every globally matching element,
or — when nothing matches — extension of `root.find(elem.tag)` or creation of
a new top-level element before `worldbody`. -/
def processElem (root : Elem) (elem : Elem) (ctx : Option (List Nat)) : Elem :=
  let ops := parseCustomSyntax elem
  match firstInjectChildren ops with
  | some matchAttrs =>
    let pred := fun c => c.tag == elem.tag && attrsMatchExact matchAttrs c
    let g := fun t => t.setChildren (t.children ++ elem.children)
    match ctx with
    | some path => mapUnder (transformDesc pred g) root path
    | none => transformDesc pred g root
  | none =>
    if ops.isEmpty then
      if elem.children.any (fun c => !(parseCustomSyntax c).isEmpty) then
        processParents root (matchPathsE (findPred elem) root) elem.children
      else if (findMatchingElements root elem).isEmpty then
        createOrExtendTopLevel root elem
      else
        transformDesc (findPred elem) (injectAttrsAndChildren elem) root
    else
      let pat := Elem.mk elem.tag
        (elem.attrib.filter (fun kv => !(reservedAttrs.contains kv.1))) none []
      let g := fun t => applyOps t ops
      let root1 :=
        match ctx with
        | some path => mapUnder (transformDesc (findPred pat) g) root path
        | none => transformDesc (findPred pat) g root
      processChildren root1 elem.children ctx
  termination_by (sizeE elem, 9, 0)
  decreasing_by
  · cases elem with
    | mk t a tx cs =>
      exact Prod.Lex.right _ (Prod.Lex.left _ _ (by omega))
  · cases elem with
    | mk t a tx cs =>
      exact Prod.Lex.right _ (Prod.Lex.left _ _ (by omega))
/-- Recursion into the children of an operation-carrying element, keeping the
same parent context. -/
def processChildren (root : Elem) (cs : List Elem) (ctx : Option (List Nat)) : Elem :=
  match cs with
  | [] => root
  | c :: rest => processChildren (processElem root c ctx) rest ctx
  termination_by (1 + sizeL cs, 1, 0)
  decreasing_by
  · apply Prod.Lex.left
    apply sizeE_head_lt_cons
  · apply Prod.Lex.left
    apply Nat.add_lt_add_left
    apply sizeL_tail_lt_cons
/-- Branch 3 outer loop: for each matching parent (by path), process all
fragment children in that parent context. -/
def processParents (root : Elem) (paths : List (List Nat)) (cs : List Elem) : Elem :=
  match paths with
  | [] => root
  | p :: ps => processParents (processChildrenIn root p cs) ps cs
  termination_by (1 + sizeL cs, 2, paths.length)
  decreasing_by
  · exact Prod.Lex.right _ (Prod.Lex.left _ _ (by omega))
  · apply Prod.Lex.right
    apply Prod.Lex.right
    simp [List.length_cons]
/-- Branch 3 inner loop: children with operations are dispatched with the
parent as context; plain children are deep-copied into the parent. -/
def processChildrenIn (root : Elem) (p : List Nat) (cs : List Elem) : Elem :=
  match cs with
  | [] => root
  | c :: rest =>
    let root1 :=
      if (parseCustomSyntax c).isEmpty then
        mapUnder (fun t => t.setChildren (t.children ++ [c])) root p
      else processElem root c (some p)
    processChildrenIn root1 p rest
  termination_by (1 + sizeL cs, 1, 1)
  decreasing_by
  · apply Prod.Lex.left
    apply sizeE_head_lt_cons
  · apply Prod.Lex.left
    apply Nat.add_lt_add_left
    apply sizeL_tail_lt_cons
end

/-- `post_process_inject_custom_mujoco_elements(root, elements)`: process each
extracted annotation fragment in order (an empty fragment list only warns). -/
def postProcessInjectCustomElements (root : Elem) (elements : List Elem) : Elem :=
  elements.foldl (fun r e => processElem r e none) root

/-! ### Fragment merger (urdf_preprocess.py, `_merge_nodes_recursively`) -/

/-- `(child.text or "").strip()`. -/
def trimmedText (e : Elem) : String := pyStrip (e.text.getD "")

/-- Python dict equality on attribute mappings (order-insensitive: every
binding of each side is present in the other). -/
def dictEqB (a b : List (String × String)) : Bool :=
  a.all (fun kv => dictGet b kv.1 == some kv.2) && b.all (fun kv => dictGet a kv.1 == some kv.2)

/-- The merger's child equivalence: same tag, equal attribute dict, equal
trimmed text (grandchildren are not compared). -/
def shallowEq (a b : Elem) : Bool :=
  a.tag == b.tag && dictEqB a.attrib b.attrib && trimmedText a == trimmedText b

/-- The merger's linear search for the first equivalent existing child;
removal by object identity is modelled positionally: the list splits into the
part before the found child, the child, and the part after. -/
def splitAtShallowEq (child : Elem) : List Elem → Option (List Elem × Elem × List Elem)
  | [] => none
  | x :: xs =>
    if shallowEq x child then some ([], x, xs)
    else (splitAtShallowEq child xs).map (fun r => (x :: r.1, r.2.1, r.2.2))

/-- Folding the children of an incoming node into the accumulator `merged`:
for each incoming child, search the accumulator children for the first
equivalent one; if found and either side has grandchildren, replace it by the
recursive merge of the two (removed in place, merged version appended at the
end); if found and both are childless, do nothing; if not found, append a deep
copy of the incoming child. -/
def mergeChildren (merged : Elem) : List Elem → Elem
  | [] => merged
  | child :: rest =>
    let next :=
      match splitAtShallowEq child merged.children with
      | none => merged.setChildren (merged.children ++ [child])
      | some (pre, ec, post) =>
        if child.children.isEmpty && ec.children.isEmpty then merged
        else merged.setChildren (pre ++ post ++ [mergeChildren ec child.children])
    mergeChildren next rest
  termination_by cs => sizeL cs
  decreasing_by
  · apply sizeL_children_lt_cons
  · apply sizeL_tail_lt_cons

/-- `_merge_nodes_recursively([merged, incoming])` for two nodes, which is how
the source recurses on matched children. -/
def mergeInto (merged incoming : Elem) : Elem := mergeChildren merged incoming.children

/-- `_merge_nodes_recursively(nodes)`: `None` for an empty list, a deep copy of
a single node, else each later node folded into a deep copy of the first. -/
def mergeNodesRecursively : List Elem → Option Elem
  | [] => none
  | [n] => some n
  | n :: rest => some (rest.foldl mergeInto n)

/-! ### Tree equality up to child order

The specified comparison for merge results: equal tag, attribute set and
trimmed text, and children equal as multisets (each child of one side matched
with an equivalent child of the other, order-insensitively). -/

mutual
def eqv (a b : Elem) : Bool :=
  a.tag == b.tag && dictEqB a.attrib b.attrib && trimmedText a == trimmedText b
    && eqvChildren a.children b.children
  termination_by (sizeE a, 1, 0)
  decreasing_by
  · cases a with
    | mk t at2 tx cs => exact Prod.Lex.right _ (Prod.Lex.left _ _ (by omega))
def eqvChildren : List Elem → List Elem → Bool
  | [], bs => bs.isEmpty
  | a :: xs, bs =>
    match extractEqv a bs with
    | some rest => eqvChildren xs rest
    | none => false
  termination_by xs _ => (1 + sizeL xs, 0, 0)
  decreasing_by
  · apply Prod.Lex.left
    apply sizeE_head_lt_cons
  · apply Prod.Lex.left
    apply Nat.add_lt_add_left
    apply sizeL_tail_lt_cons
def extractEqv (a : Elem) : List Elem → Option (List Elem)
  | [] => none
  | b :: bs => if eqv a b then some bs else (extractEqv a bs).map (b :: ·)
  termination_by bs => (sizeE a, 2, sizeL bs)
  decreasing_by
  · exact Prod.Lex.right _ (Prod.Lex.left _ _ (by omega))
  · apply Prod.Lex.right
    apply Prod.Lex.right
    apply sizeL_tail_lt_cons
end

/-! ### Actuator synthesizer (`post_process_add_actuators`,
`post_process_add_mimic_plugins`, `ensure_extension_node`) -/

/-- `root.find(tag)`: the first direct child with the given tag. -/
def namedChild (root : Elem) (tag : String) : Option Elem :=
  root.children.find? (fun c => c.tag == tag)

/-- Insert a node right after the first `worldbody` child (else append),
as done with `root.insert(worldbody_index + 1, node)`. -/
def insertAfterWorldbody (root : Elem) (node : Elem) : Elem :=
  match root.children.findIdx? (fun c => c.tag == "worldbody") with
  | some i => root.setChildren (root.children.take (i + 1) ++ node :: root.children.drop (i + 1))
  | none => root.setChildren (root.children ++ [node])

/-- `ensure_extension_node(root)`: keep an existing `extension` child, else
insert a new one after `compiler`, else before `worldbody`, else append. -/
def ensureExtensionNode (root : Elem) : Elem :=
  if hasChildTag root "extension" then root
  else
    let node := Elem.mk "extension" [] none []
    match root.children.findIdx? (fun c => c.tag == "compiler") with
    | some i => root.setChildren (root.children.take (i + 1) ++ node :: root.children.drop (i + 1))
    | none => insertBeforeWorldbody root node

/-- `ros2c_joint_map.get(joint_name)`. -/
def lookupIfaces (m : List (String × List String)) (k : String) : Option (List String) :=
  (m.find? (fun kv => kv.1 == k)).map (fun kv => kv.2)

/-- The interface kinds turned into actuator tags, in source order: `position`
first, then `velocity`; other kinds are ignored. -/
def jointActuatorTags (ifaces : List String) : List String :=
  (if ifaces.contains "position" then ["position"] else []) ++
    (if ifaces.contains "velocity" then ["velocity"] else [])

/-- The actuator element built for one joint and one interface kind: name
(suffixed with the kind when requested), joint, the matching gain (`kp` from
the first default gain for position, `kv` from the second for velocity), then
`ctrlrange` copied from the joint `range` and `forcelimited`/`forcerange` from
the joint `actuatorfrcrange` when present.  Numeric gains are modelled by
their `str()` rendering. -/
def actuatorElem (joint : Elem) (jname tag : String) (useSuffix : Bool)
    (gains : String × String) : Elem :=
  let actName := if useSuffix then jname ++ "_" ++ tag else jname
  let attrs1 := [("name", actName), ("joint", jname)] ++
    (if tag == "position" then [("kp", gains.1)]
     else if tag == "velocity" then [("kv", gains.2)] else [])
  let attrs2 := attrs1 ++
    (match joint.get "range" with
     | some r => [("ctrlrange", r)]
     | none => [])
  let attrs3 := attrs2 ++
    (match joint.get "actuatorfrcrange" with
     | some fr => [("forcelimited", "true"), ("forcerange", fr)]
     | none => [])
  Elem.mk tag attrs3 none []

/-- The loop body of `post_process_add_actuators` for one actuatable joint:
the actuator elements for the requested kinds (suffix used when more than one
kind is present or the global policy forces it), followed by the ROS actuator
command plugin when requested and the joint is not a mimic follower. -/
def jointActuatorBlock (joint : Elem) (ros2cJointMap : List (String × List String))
    (mimicJointNames : List String) (addRosPlugins : Bool) (gains : String × String)
    (forceActuatorTags : Bool) (defaultInstance : String) : List Elem :=
  match joint.get "name" with
  | none => []
  | some jname =>
    if jname == "" then []
    else
      let ifaces := (lookupIfaces ros2cJointMap jname).getD []
      let tags := jointActuatorTags ifaces
      if tags.isEmpty then []
      else
        let useSuffix := decide (tags.length > 1) || forceActuatorTags
        tags.map (fun tag => actuatorElem joint jname tag useSuffix gains) ++
          (if addRosPlugins && !(mimicJointNames.contains jname) then
            [Elem.mk "plugin"
              [("plugin", "MujocoRosUtils::ActuatorCommand"), ("joint", jname),
               ("instance", defaultInstance)] none []]
          else [])

/-- The joints the actuator loop runs over: the `worldbody` descendants with
tag `joint`, not of type `free`, whose name is a key of the joint map. -/
def actuatableJoints (worldbody : Elem) (ros2cJointMap : List (String × List String)) :
    List Elem :=
  (((descendants worldbody).filter (fun j => j.tag == "joint")).filter
      (fun j => !(j.get "type" == some "free"))).filter
    (fun j =>
      match j.get "name" with
      | some n => (ros2cJointMap.map Prod.fst).contains n
      | none => false)

/-- `post_process_add_actuators`: bail out without a `worldbody` or an empty
joint map; restrict to the actuatable joints; ensure the `actuator` section
(inserted after `worldbody`) and, when ROS plugins are requested, the
`ActuatorCommand` extension plugin; then append the per-joint actuator
elements. -/
def postProcessAddActuators (root : Elem) (ros2cJointMap : List (String × List String))
    (mimicJointNames : List String) (addRosPlugins : Bool) (gains : String × String)
    (forceActuatorTags : Bool) (defaultInstance : String) : Elem :=
  match namedChild root "worldbody" with
  | none => root
  | some worldbody =>
    if ros2cJointMap.isEmpty then root
    else
      let actuatable := actuatableJoints worldbody ros2cJointMap
      if actuatable.isEmpty then root
      else
        let root1 :=
          if hasChildTag root "actuator" then root
          else insertAfterWorldbody root (Elem.mk "actuator" [] none [])
        let root2 :=
          if addRosPlugins then
            updateNamedChild (ensureExtensionNode root1) "extension" (fun ext =>
              if ext.children.any (fun p =>
                  p.tag == "plugin" && p.get "plugin" == some "MujocoRosUtils::ActuatorCommand")
              then ext
              else ext.setChildren (ext.children ++
                [Elem.mk "plugin" [("plugin", "MujocoRosUtils::ActuatorCommand")] none
                  [Elem.mk "instance" [("name", defaultInstance)] none []]]))
          else root1
        let newChildren := actuatable.flatMap (fun joint =>
          jointActuatorBlock joint ros2cJointMap mimicJointNames addRosPlugins gains
            forceActuatorTags defaultInstance)
        updateNamedChild root2 "actuator" (fun a => a.setChildren (a.children ++ newChildren))

/-- One mimic relation entry: leader joint name, multiplier, optional offset
(all attribute strings from the source document). -/
structure MimicInfo where
  joint : String
  multiplier : String
  offset : Option String

/-- Python `float(s) == 0.0` on the decimal literals passed as offsets:
optional sign, mantissa digits with an optional decimal point, optional
exponent; zero iff the mantissa has a digit and every mantissa digit is `0`
(float underflow of tiny nonzero literals is not modelled). -/
def pyFloatIsZero (s : String) : Bool :=
  let t0 := (pyStrip s).toList
  let t1 :=
    match t0 with
    | c :: rest => if c == '+' || c == '-' then rest else t0
    | [] => []
  let digits := (t1.takeWhile (fun c => c.isDigit || c == '.')).filter Char.isDigit
  !digits.isEmpty && digits.all (fun c => c == '0')

/-- `set(a.get("name", "") for a in actuator_node)`. -/
def actuatorNames (root : Elem) : List String :=
  match namedChild root "actuator" with
  | some act => act.children.map (fun a => (a.get "name").getD "")
  | none => []

/-- `act.children.any(... position actuator for the joint exists ...)` of the
per-entry loop. -/
def hasPositionFor (root : Elem) (jname : String) : Bool :=
  match namedChild root "actuator" with
  | some act => act.children.any (fun a => a.tag == "position" && a.get "joint" == some jname)
  | none => false

/-- The synthesized position actuator attributes for a mimic follower joint:
the chosen unique name, the joint, `kp` from the first default gain, and the
range attributes copied from the joint definition found in the tree. -/
def mimicPosAttrs (root : Elem) (jname cand : String) (gains : String × String) :
    List (String × String) :=
  [("name", cand), ("joint", jname), ("kp", gains.1)] ++
    (match (descendants root).find? (fun j => j.tag == "joint" && j.get "name" == some jname) with
     | some jnode =>
       (match jnode.get "range" with
        | some r => [("ctrlrange", r)]
        | none => []) ++
       (match jnode.get "actuatorfrcrange" with
        | some fr => [("forcelimited", "true"), ("forcerange", fr)]
        | none => [])
     | none => [])

/-- The config children of the `MimicJoint` plugin element: the leader joint,
the multiplier as gear, and the offset only when it parses to a non-zero
float. -/
def mimicPluginChildren (info : MimicInfo) : List Elem :=
  [Elem.mk "config" [("key", "mimic_joint"), ("value", info.joint)] none [],
   Elem.mk "config" [("key", "gear"), ("value", info.multiplier)] none []] ++
  (if !(pyFloatIsZero (info.offset.getD "0.0")) then
    [Elem.mk "config" [("key", "offset"), ("value", info.offset.getD "")] none []]
  else [])

/-- One iteration of the `post_process_add_mimic_plugins` loop: ensure a
`position` actuator on the follower joint (synthesized with the bare name, or
`{joint}_position` when that name is taken), then append the `MimicJoint`
plugin element; returns the new tree and the updated name set. -/
def mimicStep (root : Elem) (jname : String) (info : MimicInfo)
    (names : List String) (gains : String × String) : Elem × List String :=
  let hasPos := hasPositionFor root jname
  let cand := if names.contains jname then jname ++ "_position" else jname
  let root1 :=
    if hasPos then root
    else
      updateNamedChild root "actuator"
        (fun a => a.setChildren (a.children ++
          [Elem.mk "position" (mimicPosAttrs root jname cand gains) none []]))
  let names1 := if hasPos then names else cand :: names
  let root2 := updateNamedChild root1 "actuator" (fun a => a.setChildren (a.children ++
    [Elem.mk "plugin" [("plugin", "MujocoRosUtils::MimicJoint"), ("joint", jname)]
      none (mimicPluginChildren info)]))
  (root2, names1)

/-- The per-entry loop of `post_process_add_mimic_plugins`. -/
def mimicLoop (root : Elem) (entries : List (String × MimicInfo))
    (names : List String) (gains : String × String) : Elem :=
  match entries with
  | [] => root
  | (jname, info) :: rest =>
    let rn := mimicStep root jname info names gains
    mimicLoop rn.1 rest rn.2 gains

/-- Ensure the `actuator` section for the mimic loop: keep an existing one,
else insert a fresh one after `worldbody`, else append it. -/
def ensureActuatorSection (r2 : Elem) : Elem :=
  if hasChildTag r2 "actuator" then r2
  else if hasChildTag r2 "worldbody" then
    insertAfterWorldbody r2 (Elem.mk "actuator" [] none [])
  else r2.setChildren (r2.children ++ [Elem.mk "actuator" [] none []])

/-- The setup of `post_process_add_mimic_plugins`: ensure the extension node
with the `MimicJoint` plugin declaration, then the `actuator` section. -/
def mimicSetup (root : Elem) : Elem :=
  ensureActuatorSection (updateNamedChild (ensureExtensionNode root) "extension" (fun ext =>
    if ext.children.any (fun p =>
        p.tag == "plugin" && p.get "plugin" == some "MujocoRosUtils::MimicJoint")
    then ext
    else ext.setChildren (ext.children ++
      [Elem.mk "plugin" [("plugin", "MujocoRosUtils::MimicJoint")] none []])))

/-- `post_process_add_mimic_plugins(root, mimic_joints, default_actuator_gains)`:
nothing on an empty map; ensure the `MimicJoint` extension plugin and the
`actuator` section, then run the per-entry loop starting from the existing
actuator names. -/
def postProcessAddMimicPlugins (root : Elem) (mimicJoints : List (String × MimicInfo))
    (gains : String × String) : Elem :=
  if mimicJoints.isEmpty then root
  else mimicLoop (mimicSetup root) mimicJoints (actuatorNames (mimicSetup root)) gains

/-! ### Properties of the operation applier -/

theorem get_set (e : Elem) (k v k' : String) :
    (e.set k v).get k' = if k = k' then some v else e.get k' := by
  cases e with
  | mk t a tx cs => simp [Elem.set, Elem.get, Elem.attrib, dictGet_dictSet]

theorem keys_set (e : Elem) (k v : String) (h : (e.get k).isSome) :
    (e.set k v).attrib.map Prod.fst = e.attrib.map Prod.fst := by
  cases e with
  | mk t a tx cs =>
    simp only [Elem.set, Elem.get, Elem.attrib] at h ⊢
    rw [keys_dictSet]
    simp [h]

theorem get_del (e : Elem) (k k' : String) (hnd : (e.attrib.map Prod.fst).Nodup) :
    (e.del k).get k' = if k = k' then none else e.get k' := by
  cases e with
  | mk t a tx cs =>
    simp only [Elem.del, Elem.get, Elem.attrib] at hnd ⊢
    exact dictGet_dictDel a k k' hnd

/-- The value a left-to-right assignment loop leaves for a key: the last
binding of that key wins. -/
def lastVal : List (String × String) → String → Option String
  | [], _ => none
  | kv :: rest, k =>
    match lastVal rest k with
    | some v => some v
    | none => if kv.1 = k then some kv.2 else none

theorem get_setAll (attrs : List (String × String)) (e : Elem) (k : String) :
    (setAll e attrs).get k =
      match lastVal attrs k with
      | some v => some v
      | none => e.get k := by
  induction attrs generalizing e with
  | nil => simp [setAll, lastVal]
  | cons kv rest ih =>
    have hstep : setAll e (kv :: rest) = setAll (e.set kv.1 kv.2) rest := rfl
    rw [hstep, ih]
    cases h : lastVal rest k with
    | some v => simp [lastVal, h]
    | none => by_cases hk : kv.1 = k <;> simp [lastVal, h, hk, get_set]

/-- Full description of the replace fold: the key list is untouched, and a key
keeps its old value unless it was present and some pair of the operation names
it, in which case the last such pair wins. -/
theorem replaceFold_spec (attrs : List (String × String)) : ∀ e : Elem,
    ((attrs.foldl (fun t kv => if (t.get kv.1).isSome then t.set kv.1 kv.2 else t) e).attrib.map
        Prod.fst = e.attrib.map Prod.fst) ∧
    ∀ k, (attrs.foldl (fun t kv => if (t.get kv.1).isSome then t.set kv.1 kv.2 else t) e).get k =
      match e.get k with
      | none => none
      | some v =>
        match lastVal attrs k with
        | some w => some w
        | none => some v := by
  induction attrs with
  | nil =>
    intro e
    refine ⟨rfl, fun k => ?_⟩
    cases h : e.get k <;> simp [lastVal, h]
  | cons kv rest ih =>
    intro e
    rw [List.foldl_cons]
    obtain ⟨ihk, ihg⟩ := ih (if (e.get kv.1).isSome then e.set kv.1 kv.2 else e)
    have hkeys : (if (e.get kv.1).isSome then e.set kv.1 kv.2 else e).attrib.map Prod.fst =
        e.attrib.map Prod.fst := by
      split_ifs with hp
      · exact keys_set e kv.1 kv.2 hp
      · rfl
    refine ⟨by rw [ihk, hkeys], fun k => ?_⟩
    rw [ihg k]
    by_cases hk : kv.1 = k
    · subst hk
      cases hv : e.get kv.1 with
      | none => simp [hv, lastVal]
      | some v =>
        cases h2 : lastVal rest kv.1 with
        | some w => simp [hv, h2, get_set, lastVal]
        | none => simp [hv, h2, get_set, lastVal]
    · have hget : (if (e.get kv.1).isSome then e.set kv.1 kv.2 else e).get k = e.get k := by
        split_ifs with hp
        · rw [get_set]
          simp [hk]
        · rfl
      rw [hget]
      cases hv : e.get k with
      | none => simp
      | some v =>
        cases h2 : lastVal rest k with
        | some w => simp [h2, lastVal]
        | none => simp [h2, lastVal, hk]

/-- Full description of the conditional-delete fold used by the conditional
replacement: with unique keys, exactly the condition keys end up absent. -/
theorem delFold_spec (conds : List (String × String)) : ∀ e : Elem,
    (e.attrib.map Prod.fst).Nodup →
    (((conds.foldl (fun t kv => if (t.get kv.1).isSome then t.del kv.1 else t) e).attrib.map
        Prod.fst).Nodup) ∧
    ∀ k, (conds.foldl (fun t kv => if (t.get kv.1).isSome then t.del kv.1 else t) e).get k =
      if k ∈ conds.map Prod.fst then none else e.get k := by
  induction conds with
  | nil =>
    intro e hnd
    exact ⟨hnd, fun k => by simp⟩
  | cons kv rest ih =>
    intro e hnd
    rw [List.foldl_cons]
    have hnd2 : ((if (e.get kv.1).isSome then e.del kv.1 else e).attrib.map Prod.fst).Nodup := by
      split_ifs with hp
      · cases e with
        | mk t a tx cs => exact nodup_keys_dictDel a kv.1 hnd
      · exact hnd
    obtain ⟨ihn, ihg⟩ := ih (if (e.get kv.1).isSome then e.del kv.1 else e) hnd2
    refine ⟨ihn, fun k => ?_⟩
    have hget : (if (e.get kv.1).isSome then e.del kv.1 else e).get k =
        if kv.1 = k then none else e.get k := by
      by_cases hk : kv.1 = k
      · subst hk
        rw [if_pos rfl]
        by_cases hp : (e.get kv.1).isSome
        · rw [if_pos hp, get_del e kv.1 kv.1 hnd, if_pos rfl]
        · rw [if_neg hp]
          cases hg : e.get kv.1 with
          | none => rfl
          | some v => simp [hg] at hp
      · rw [if_neg hk]
        by_cases hp : (e.get kv.1).isSome
        · rw [if_pos hp, get_del e kv.1 k hnd, if_neg hk]
        · rw [if_neg hp]
    rw [ihg k, hget]
    by_cases hc : k ∈ rest.map Prod.fst
    · simp [hc]
    · by_cases hk : kv.1 = k
      · subst hk
        simp [hc]
      · simp [hc, hk, Ne.symm hk]

/-- C5: Inject is overwrite-total and always succeeds: after applying an
inject operation, every key named by the operation holds the operation value
(the last occurrence winning), every other key keeps its prior value — the
attributes are exactly the union of the prior attributes and the injected
ones, with the injected values winning on collision. -/
theorem inject_overwrite_total (e : Elem) (attrs : List (String × String)) (k : String) :
    (applyOp e (Op.inject attrs)).get k =
      match lastVal attrs k with
      | some v => some v
      | none => e.get k := by
  have hred : applyOp e (Op.inject attrs) = setAll e attrs := rfl
  rw [hred]
  exact get_setAll attrs e k

/-- C4: Replace preserves the target attribute key set: applying a replace
operation never changes the key list; a pair is applied only when the target
already had the key (the remaining pairs of the operation still being
applied), so a key ends with the last operation value naming it when it was
present, its old value otherwise, and absent keys stay absent. -/
theorem replace_preserves_keys (e : Elem) (attrs : List (String × String)) :
    ((applyOp e (Op.replace attrs)).attrib.map Prod.fst = e.attrib.map Prod.fst) ∧
    ∀ k, (applyOp e (Op.replace attrs)).get k =
      match e.get k with
      | none => none
      | some v =>
        match lastVal attrs k with
        | some w => some w
        | none => some v :=
  replaceFold_spec attrs e

/-- C3: ConditionalReplace is atomic: when every condition key is present with
exactly the condition value, the operation removes every condition key and
then sets every replacement pair (pointwise: a replacement key gets the last
replacement value, a pure condition key becomes absent, everything else keeps
its prior value); when any condition fails, the target is unchanged. -/
theorem conditional_replace_atomic (e : Elem) (conds repls : List (String × String))
    (hnd : (e.attrib.map Prod.fst).Nodup) :
    (conds.all (fun kv => e.get kv.1 == some kv.2) = false →
      applyOp e (Op.conditionalReplace conds repls) = e) ∧
    (conds.all (fun kv => e.get kv.1 == some kv.2) = true → ∀ k,
      (applyOp e (Op.conditionalReplace conds repls)).get k =
        match lastVal repls k with
        | some w => some w
        | none => if k ∈ conds.map Prod.fst then none else e.get k) := by
  constructor
  · intro hfail
    simp [applyOp, hfail]
  · intro hok k
    have hred : applyOp e (Op.conditionalReplace conds repls) =
        repls.foldl (fun t kv => t.set kv.1 kv.2)
          (conds.foldl (fun t kv => if (t.get kv.1).isSome then t.del kv.1 else t) e) := by
      simp [applyOp, hok]
    rw [hred]
    have hdel := (delFold_spec conds e hnd).2
    have hsa : repls.foldl (fun t kv => t.set kv.1 kv.2)
        (conds.foldl (fun t kv => if (t.get kv.1).isSome then t.del kv.1 else t) e) =
        setAll (conds.foldl (fun t kv => if (t.get kv.1).isSome then t.del kv.1 else t) e)
          repls := rfl
    rw [hsa, get_setAll, hdel k]

/-- The Scenario D target element `<geom class="old" other="x"/>`. -/
def geomOldX : Elem := Elem.mk "geom" [("class", "old"), ("other", "x")] none []

/-- The Scenario D condition list. -/
def condsD : List (String × String) := [("class", "old")]

/-- The Scenario D replacement list. -/
def replsD : List (String × String) := [("class", "new")]

/-- Witness for C3 at the Scenario D inputs: target
`<geom class="old" other="x"/>`, condition `class=old`, replacement
`class=new`. -/
theorem conditional_replace_atomic_witness :
    ((geomOldX.attrib.map Prod.fst).Nodup) ∧
    ((condsD.all (fun kv => geomOldX.get kv.1 == some kv.2) = false →
      applyOp geomOldX (Op.conditionalReplace condsD replsD) = geomOldX) ∧
    (condsD.all (fun kv => geomOldX.get kv.1 == some kv.2) = true → ∀ k,
      (applyOp geomOldX (Op.conditionalReplace condsD replsD)).get k =
        match lastVal replsD k with
        | some w => some w
        | none => if k ∈ condsD.map Prod.fst then none else geomOldX.get k)) :=
  ⟨by decide, conditional_replace_atomic geomOldX condsD replsD (by decide)⟩

/-- C10: a pattern element with an empty attribute set matches nothing: the
matcher returns the empty list whatever the tree contains. -/
theorem tag_only_pattern_matches_nothing (root pat : Elem) (h : pat.attrib = []) :
    findMatchingElements root pat = [] := by
  simp [findMatchingElements, h]

/-- Witness for C10: a tag-only `<sensor>` pattern matches nothing even though
the tree holds a `<sensor>` element. -/
theorem tag_only_pattern_matches_nothing_witness :
    (Elem.mk "sensor" [] none []).attrib = [] ∧
    (descendants (Elem.mk "mujoco" [] none [Elem.mk "sensor" [("rate", "5")] none []])).any
      (fun c => c.tag == "sensor") = true ∧
    findMatchingElements (Elem.mk "mujoco" [] none [Elem.mk "sensor" [("rate", "5")] none []])
      (Elem.mk "sensor" [] none []) = [] :=
  ⟨rfl, by decide,
    tag_only_pattern_matches_nothing
      (Elem.mk "mujoco" [] none [Elem.mk "sensor" [("rate", "5")] none []])
      (Elem.mk "sensor" [] none []) rfl⟩

/-! ### C2: routing of replace strings -/

/-- The replace string `class='a:b'`: its only colon sits inside the quoted
value. -/
def colonInQuotesStr : String :=
  "class=" ++ squote.toString ++ "a:b" ++ squote.toString

/-- An annotation element `<geom replace_attrs="class='a:b'"/>`. -/
def geomColonElem : Elem := Elem.mk "geom" [("replace_attrs", colonInQuotesStr)] none []

/-- C2 counterexample: the claim predicts that `class='a:b'` (no top-level
colon) parses as a plain Replace — and the plain grammar indeed yields exactly
the pair class/a:b — but the code routes every colon-containing string to the
conditional parser, whose left side yields no pairs, so the whole operation is
dropped. -/
theorem replace_colon_counterexample :
    parseCustomSyntax geomColonElem = [] ∧
    parseAttrString colonInQuotesStr = [("class", "a:b")] :=
  ⟨rfl, rfl⟩

/-- C2 (amended): a replace string is routed to the ConditionalReplace parser
whenever it contains any colon — also one inside a quoted value or belonging
to the `:=` assignment form — and is parsed as a plain Replace only when it
contains no colon at all; after the split at the first colon, a side yielding
zero key=value pairs makes the whole operation dropped (with a warning) while
processing continues. -/
theorem replace_parse_routing (tg s : String) (hs : s ≠ "") :
    (s.toList.contains ':' = false →
      parseCustomSyntax (Elem.mk tg [("replace_attrs", s)] none []) =
        (if (parseAttrString s).isEmpty then [] else [Op.replace (parseAttrString s)])) ∧
    (s.toList.contains ':' = true →
      parseCustomSyntax (Elem.mk tg [("replace_attrs", s)] none []) =
        (match parseConditionalReplacement s with
         | some cr => [Op.conditionalReplace cr.1 cr.2]
         | none => [])) ∧
    (∀ l r, splitFirstColon s = some (l, r) →
      ((parseAttrString (pyStrip l)).isEmpty = true ∨
        (parseAttrString (pyStrip r)).isEmpty = true) →
      parseConditionalReplacement s = none) := by
  have hs2 : (s == "") = false := by
    cases hi : s == ""
    · rfl
    · exact absurd (by simpa using hi) hs
  have h1 : (Elem.mk tg [("replace_attrs", s)] none []).get "inject_attr" = none := rfl
  have h2 : (Elem.mk tg [("replace_attrs", s)] none []).get "inject_attrs" = none := rfl
  have h3 : (Elem.mk tg [("replace_attrs", s)] none []).get "replace_attrs" = some s := rfl
  have h4 : (Elem.mk tg [("replace_attrs", s)] none []).get "inject_children" = none := rfl
  refine ⟨?_, ?_, ?_⟩
  · intro hc
    have hcm : ':' ∉ s.data := by simpa using hc
    simp [parseCustomSyntax, h1, h2, h3, h4, hs2, hcm]
  · intro hc
    have hcm : ':' ∈ s.data := by simpa using hc
    simp [parseCustomSyntax, h1, h2, h3, h4, hs2, hcm]
  · intro l r hsplit hempty
    simp only [parseConditionalReplacement, hsplit]
    rcases hempty with he | he
    · simp [he]
    · cases hce : (parseAttrString (pyStrip l)).isEmpty <;> simp [he, hce]

/-- Witness for the amended C2 at the counterexample string (a colon inside
the quoted value still routes to the conditional parser and is dropped). -/
theorem replace_parse_routing_witness :
    colonInQuotesStr ≠ "" ∧
    ((colonInQuotesStr.toList.contains ':' = false →
      parseCustomSyntax (Elem.mk "geom" [("replace_attrs", colonInQuotesStr)] none []) =
        (if (parseAttrString colonInQuotesStr).isEmpty then []
         else [Op.replace (parseAttrString colonInQuotesStr)])) ∧
    (colonInQuotesStr.toList.contains ':' = true →
      parseCustomSyntax (Elem.mk "geom" [("replace_attrs", colonInQuotesStr)] none []) =
        (match parseConditionalReplacement colonInQuotesStr with
         | some cr => [Op.conditionalReplace cr.1 cr.2]
         | none => [])) ∧
    (∀ l r, splitFirstColon colonInQuotesStr = some (l, r) →
      ((parseAttrString (pyStrip l)).isEmpty = true ∨
        (parseAttrString (pyStrip r)).isEmpty = true) →
      parseConditionalReplacement colonInQuotesStr = none)) :=
  ⟨by decide, replace_parse_routing "geom" colonInQuotesStr (by decide)⟩

/-! ### C7: wildcard and exact matching -/

theorem globStar_nil (vl : List Char) : globStar [] vl = true := by
  induction vl with
  | nil => simp [globStar, globMatch]
  | cons c vs ih => simp [globStar, ih]

/-- A glob pattern that is a literal followed by a single final `*` matches
exactly the values starting with that literal. -/
theorem globMatch_append_star (pl : List Char) (h : ∀ c ∈ pl, c ≠ '*' ∧ c ≠ '?') :
    ∀ vl, globMatch (pl ++ ['*']) vl = pl.isPrefixOf vl := by
  induction pl with
  | nil =>
    intro vl
    rw [List.nil_append, globMatch.eq_def]
    simp [globStar_nil, List.isPrefixOf]
  | cons p pr ih =>
    intro vl
    obtain ⟨hp1, hp2⟩ := h p (List.mem_cons_self p pr)
    have hpr : ∀ c ∈ pr, c ≠ '*' ∧ c ≠ '?' := fun c hc => h c (List.mem_cons_of_mem p hc)
    cases vl with
    | nil =>
      rw [List.cons_append, globMatch.eq_def]
      simp [hp1, List.isPrefixOf]
    | cons c vs =>
      rw [List.cons_append, globMatch.eq_def]
      simp [hp1, hp2, ih hpr vs, List.isPrefixOf]

/-- On the exact path with a query ElementTree accepts - a single pattern
attribute with a quote-free value - the matcher selects precisely the
descendants with the pattern tag carrying exactly that attribute value. -/
theorem exact_match_membership (root pat e : Elem) (kv : String × String)
    (hA : pat.attrib = [kv]) (hq : kv.2.toList.contains squote = false)
    (hw : hasWildcard pat.attrib = false) :
    e ∈ findMatchingElements root pat ↔
      e ∈ descendants root ∧ e.tag = pat.tag ∧ e.get kv.1 = some kv.2 := by
  have h0 : pat.attrib.isEmpty = false := by rw [hA]; rfl
  have hw2 : hasWildcard [kv] = false := by
    rw [← hA]
    exact hw
  have hx2 : xpathExactOk [kv] = true := by
    show (!(kv.2.toList.contains squote)) = true
    rw [hq]
    rfl
  rw [findMatchingElements_eq_filter, List.mem_filter]
  simp [findPred, h0, hw2, hx2, attrsMatchExact, hA, and_assoc]

/-- On the exact path a query ElementTree rejects - two or more pattern
attributes, or a quote in a value - matches no element at all. -/
theorem exact_malformed_no_match (root pat : Elem)
    (hw : hasWildcard pat.attrib = false) (hx : xpathExactOk pat.attrib = false) :
    findMatchingElements root pat = [] := by
  by_cases h0 : pat.attrib.isEmpty
  · simp [findMatchingElements, h0]
  · simp [findMatchingElements, h0, hw, hx]

/-- C7 (amended): on the exact path — no attribute value of the pattern
element contains `*` — the code joins one `@name='value'` condition per
attribute with `' and '` into a single XPath bracket, which ElementTree
accepts only as a lone `[@name='value']` predicate: a pattern with exactly
one attribute whose value has no single quote matches a candidate iff the
candidate has the pattern tag and exactly that attribute value (case-sensitive
string equality), while a pattern with two or more attributes, or a quote in
a value, makes `findall` raise and the matcher return no elements at all.  A
glob pattern of the form literal prefix plus `*` matches exactly the values
starting with that prefix.  (When some sibling attribute contains `*`, all
the element patterns are glob-matched, so `?` stays special even in `*`-free
patterns — see the counterexample.) -/
theorem wildcard_matching_spec :
    (∀ root pat e kv, pat.attrib = [kv] → kv.2.toList.contains squote = false →
      hasWildcard pat.attrib = false →
      (e ∈ findMatchingElements root pat ↔
        e ∈ descendants root ∧ e.tag = pat.tag ∧ e.get kv.1 = some kv.2)) ∧
    (∀ root pat, hasWildcard pat.attrib = false → xpathExactOk pat.attrib = false →
      findMatchingElements root pat = []) ∧
    (∀ pre v : String, (∀ c ∈ pre.toList, c ≠ '*' ∧ c ≠ '?' ∧ c ≠ '[') →
      fnmatchStr v (pre ++ "*") = pre.toList.isPrefixOf v.toList) := by
  refine ⟨?_, ?_, ?_⟩
  · intro root pat e kv hA hq hw
    exact exact_match_membership root pat e kv hA hq hw
  · intro root pat hw hx
    exact exact_malformed_no_match root pat hw hx
  · intro pre v h
    have hl : (pre ++ "*").toList = pre.toList ++ ['*'] := by
      show (pre ++ "*").data = pre.data ++ ['*']
      rw [String.data_append]
    simp only [fnmatchStr, hl]
    exact globMatch_append_star pre.toList (fun c hc => ⟨(h c hc).1, (h c hc).2.1⟩) v.toList

/-- The candidate element of the C7 counterexample. -/
def cand7 : Elem := Elem.mk "g" [("a", "xy"), ("b", "ab")] none []

/-- A tree holding the candidate. -/
def root7 : Elem := Elem.mk "mujoco" [] none [cand7]

/-- A pattern whose first attribute has a `*` and whose second is `*`-free but
contains `?`. -/
def pat7 : Elem := Elem.mk "g" [("a", "x*"), ("b", "a?")] none []

/-- C7 counterexample: the `*`-free pattern `a?` matches the value `ab`
(through the wildcard path chosen because the sibling pattern `x*` has a star),
although the two strings are not equal — so a pattern with no `*` does not
match only on exact equality. -/
theorem wildcard_exact_counterexample :
    findMatchingElements root7 pat7 = [cand7] ∧ "a?" ≠ "ab" := by
  constructor
  · have h1 : fnmatchStr "xy" "x*" = true := by
      simp [fnmatchStr, globMatch, globStar]
    have h2 : fnmatchStr "ab" "a?" = true := by
      simp [fnmatchStr, globMatch]
    simp [findMatchingElements, findMatchingElementsWithWildcards, root7, pat7, cand7,
      hasWildcard, descendants, descendantsList, attrsMatchGlob, Elem.get, Elem.attrib,
      Elem.tag, dictGet, h1, h2]
  · decide

/-- A two-attribute exact pattern whose XPath query ElementTree rejects. -/
def pat72 : Elem := Elem.mk "geom" [("name", "x"), ("type", "box")] none []

/-- A tree holding an element with exactly the attributes of `pat72`. -/
def root72 : Elem := Elem.mk "mujoco" [] none
  [Elem.mk "geom" [("name", "x"), ("type", "box")] none []]

/-- Witness for the amended C7: a single-attribute exact match, a two-attribute
exact pattern matching nothing even though an exactly-equal candidate exists,
and a prefix-star match, at concrete inputs. -/
theorem wildcard_matching_spec_witness :
    ((Elem.mk "joint" [("name", "hip")] none []).attrib = [("name", "hip")] ∧
      ("hip" : String).toList.contains squote = false ∧
      hasWildcard (Elem.mk "joint" [("name", "hip")] none []).attrib = false ∧
      (Elem.mk "joint" [("name", "hip")] none [] ∈
        findMatchingElements (Elem.mk "m" [] none [Elem.mk "joint" [("name", "hip")] none []])
          (Elem.mk "joint" [("name", "hip")] none []) ↔
        Elem.mk "joint" [("name", "hip")] none [] ∈
          descendants (Elem.mk "m" [] none [Elem.mk "joint" [("name", "hip")] none []]) ∧
        (Elem.mk "joint" [("name", "hip")] none []).tag =
          (Elem.mk "joint" [("name", "hip")] none []).tag ∧
        (Elem.mk "joint" [("name", "hip")] none []).get "name" = some "hip")) ∧
    (hasWildcard pat72.attrib = false ∧ xpathExactOk pat72.attrib = false ∧
      findMatchingElements root72 pat72 = []) ∧
    ((∀ c ∈ ("he" : String).toList, c ≠ '*' ∧ c ≠ '?' ∧ c ≠ '[') ∧
      fnmatchStr "hello" ("he" ++ "*") = ("he" : String).toList.isPrefixOf
        ("hello" : String).toList) :=
  ⟨⟨rfl, by decide, rfl,
      wildcard_matching_spec.1 _ _ _ ("name", "hip") rfl (by decide) rfl⟩,
    ⟨rfl, rfl, wildcard_matching_spec.2.1 root72 pat72 rfl rfl⟩,
    ⟨by decide, wildcard_matching_spec.2.2 "he" "hello" (by decide)⟩⟩

/-! ### C1: fragments with operations but no matching target -/

theorem mem_descendantsList_head (c : Elem) (rest : List Elem) (d : Elem)
    (h : d ∈ descendants c) : d ∈ descendantsList (c :: rest) := by
  show d ∈ c :: (descendants c ++ descendantsList rest)
  exact List.mem_cons_of_mem c (List.mem_append_left _ h)

theorem mem_descendantsList_tail (c : Elem) (rest : List Elem) (d : Elem)
    (h : d ∈ descendantsList rest) : d ∈ descendantsList (c :: rest) := by
  show d ∈ c :: (descendants c ++ descendantsList rest)
  exact List.mem_cons_of_mem c (List.mem_append_right _ h)

theorem mem_descendantsList_self (c : Elem) (rest : List Elem) :
    c ∈ descendantsList (c :: rest) := by
  show c ∈ c :: (descendants c ++ descendantsList rest)
  exact List.mem_cons_self c _

theorem transformDescList_id (p : Elem → Bool) (f : Elem → Elem) :
    ∀ n cs, sizeL cs ≤ n → (∀ d ∈ descendantsList cs, p d = false) →
      transformDescList p f cs = cs := by
  intro n
  induction n with
  | zero =>
    intro cs hs _
    cases cs with
    | nil => rfl
    | cons c rest =>
      exfalso
      have h1 := sizeE_pos c
      simp [sizeL] at hs
      omega
  | succ n ih =>
    intro cs hs hd
    cases cs with
    | nil => rfl
    | cons c rest =>
      have hpc : p c = false := hd c (mem_descendantsList_self c rest)
      have hc : transformDesc p f c = c := by
        cases c with
        | mk t a tx ccs =>
          have hsz : sizeL ccs ≤ n := by
            simp [sizeL, sizeE] at hs
            omega
          have hdc : ∀ d ∈ descendantsList ccs, p d = false := fun d hdm =>
            hd d (mem_descendantsList_head (Elem.mk t a tx ccs) rest d hdm)
          simp [transformDesc, ih ccs hsz hdc]
      have hrest : transformDescList p f rest = rest := by
        apply ih rest
        · have h1 := sizeE_pos c
          simp [sizeL] at hs
          omega
        · exact fun d hdm => hd d (mem_descendantsList_tail c rest d hdm)
      simp [transformDescList, hpc, hc, hrest]

/-- Mutating zero matches leaves the tree unchanged. -/
theorem transformDesc_id (p : Elem → Bool) (f : Elem → Elem) (e : Elem)
    (hd : ∀ d ∈ descendants e, p d = false) : transformDesc p f e = e := by
  cases e with
  | mk t a tx cs =>
    have hres : transformDescList p f cs = cs :=
      transformDescList_id p f (sizeL cs) cs le_rfl (by simpa [descendants] using hd)
    simp [transformDesc, hres]

/-- Dispatcher step for an operation-carrying element (no inject_children, no
children) with no matching target: the tree is returned unchanged. -/
theorem processElem_ops_no_match (root elem : Elem)
    (hops : (parseCustomSyntax elem).isEmpty = false)
    (hic : firstInjectChildren (parseCustomSyntax elem) = none)
    (hch : elem.children = [])
    (hnm : findMatchingElements root
      (Elem.mk elem.tag (elem.attrib.filter (fun kv => !(reservedAttrs.contains kv.1))) none [])
      = []) :
    processElem root elem none = root := by
  have hpred : ∀ d ∈ descendants root,
      findPred (Elem.mk elem.tag
        (elem.attrib.filter (fun kv => !(reservedAttrs.contains kv.1))) none []) d = false := by
    rw [findMatchingElements_eq_filter] at hnm
    intro d hdm
    have hmm := List.filter_eq_nil_iff.mp hnm d hdm
    simpa using hmm
  rw [processElem.eq_def]
  simp only [hic, hops, Bool.false_eq_true, if_false]
  rw [hch, transformDesc_id _ _ root hpred, processChildren.eq_def]

/-- Dispatcher step for a fragment whose element and direct children carry no
operations (grandchildren are not inspected), with no matching target: exactly
the top-level create-or-extend step runs. -/
theorem processElem_plain_no_match (r2 e2 : Elem) (h2ops : parseCustomSyntax e2 = [])
    (h2ch : (e2.children.any (fun c => !(parseCustomSyntax c).isEmpty)) = false)
    (h2nm : findMatchingElements r2 e2 = []) :
    processElem r2 e2 none = createOrExtendTopLevel r2 e2 := by
  rw [processElem.eq_def]
  simp [h2ops, firstInjectChildren, h2ch, h2nm]

/-- C1 (amended): an annotation element carrying attribute operations (no
inject_children) and no children of its own leaves the tree unchanged when no
element matches its tag and non-reserved attributes — the operations are
dropped with a warning and no element is created.  The canonical pre-worldbody
creation path is instead taken by a fragment whose element carries no
operation attributes and none of whose direct children carries any — the code
inspects only the element and its direct children, so a grandchild operation
attribute does not divert the fragment — when nothing matches it (second
conjunct: for those fragments, the no-match path is exactly the top-level
create-or-extend step). -/
theorem ops_no_match_drops (root elem : Elem)
    (hops : (parseCustomSyntax elem).isEmpty = false)
    (hic : firstInjectChildren (parseCustomSyntax elem) = none)
    (hch : elem.children = [])
    (hnm : findMatchingElements root
      (Elem.mk elem.tag (elem.attrib.filter (fun kv => !(reservedAttrs.contains kv.1))) none [])
      = []) :
    processElem root elem none = root ∧
    (∀ r2 e2 : Elem, parseCustomSyntax e2 = [] →
      (e2.children.any (fun c => !(parseCustomSyntax c).isEmpty)) = false →
      findMatchingElements r2 e2 = [] →
      processElem r2 e2 none = createOrExtendTopLevel r2 e2) :=
  ⟨processElem_ops_no_match root elem hops hic hch hnm,
    fun r2 e2 h2ops h2ch h2nm => processElem_plain_no_match r2 e2 h2ops h2ch h2nm⟩

/-- The inject attribute string `rate='100' noise='0.01'` of Scenario C. -/
def injectAttrStr : String :=
  "rate=" ++ squote.toString ++ "100" ++ squote.toString ++
    " noise=" ++ squote.toString ++ "0.01" ++ squote.toString

/-- The Scenario C fragment `<sensor inject_attr="rate='100' noise='0.01'"/>`. -/
def sensorFragment : Elem := Elem.mk "sensor" [("inject_attr", injectAttrStr)] none []

/-- A target tree `<mujoco><worldbody/></mujoco>` with no `<sensor>`. -/
def mjRoot1 : Elem := Elem.mk "mujoco" [] none [Elem.mk "worldbody" [] none []]

/-- C1 counterexample: the Scenario C fragment parses to an inject operation
with rate=100 and noise=0.01, but with no matching `<sensor>` in the tree the
dispatcher drops the operation and returns the tree unchanged — no `<sensor>`
element is created at the pre-worldbody position (or anywhere). -/
theorem inject_no_match_counterexample :
    processElem mjRoot1 sensorFragment none = mjRoot1 ∧
    (mjRoot1.children.any (fun c => c.tag == "sensor")) = false ∧
    parseCustomSyntax sensorFragment = [Op.inject [("rate", "100"), ("noise", "0.01")]] :=
  ⟨processElem_ops_no_match mjRoot1 sensorFragment rfl rfl rfl rfl, rfl, rfl⟩

/-- Witness for the amended C1 at the Scenario C inputs. -/
theorem ops_no_match_drops_witness :
    ((parseCustomSyntax sensorFragment).isEmpty = false) ∧
    (firstInjectChildren (parseCustomSyntax sensorFragment) = none) ∧
    (sensorFragment.children = []) ∧
    (findMatchingElements mjRoot1
      (Elem.mk sensorFragment.tag
        (sensorFragment.attrib.filter (fun kv => !(reservedAttrs.contains kv.1))) none [])
      = []) ∧
    (processElem mjRoot1 sensorFragment none = mjRoot1 ∧
      (∀ r2 e2 : Elem, parseCustomSyntax e2 = [] →
        (e2.children.any (fun c => !(parseCustomSyntax c).isEmpty)) = false →
        findMatchingElements r2 e2 = [] →
        processElem r2 e2 none = createOrExtendTopLevel r2 e2)) :=
  ⟨rfl, rfl, rfl, rfl, ops_no_match_drops mjRoot1 sensorFragment rfl rfl rfl rfl⟩

/-! ### C8: actuator synthesis -/

theorem namedChild_setChildren (root : Elem) (cs : List Elem) (tg : String) :
    namedChild (root.setChildren cs) tg = cs.find? (fun c => c.tag == tg) := by
  cases root with
  | mk t a tx cs0 => rfl

theorem hasChildTag_false_namedChild (root : Elem) (tg : String)
    (h : hasChildTag root tg = false) : namedChild root tg = none := by
  unfold hasChildTag at h
  unfold namedChild
  rw [List.find?_eq_none]
  intro c hc
  simp only [List.any_eq_false] at h
  exact h c hc

theorem namedChild_some_tag (root : Elem) (tg : String) (a : Elem)
    (h : namedChild root tg = some a) : a.tag = tg := by
  unfold namedChild at h
  have hp := List.find?_some h
  simpa using hp

theorem updateFirstTagged_find (cs : List Elem) (tg : String) (g : Elem → Elem)
    (hg : ∀ e, (g e).tag = e.tag) :
    (updateFirstTagged cs tg g).find? (fun c => c.tag == tg) =
      (cs.find? (fun c => c.tag == tg)).map g := by
  induction cs with
  | nil => rfl
  | cons c rest ih =>
    by_cases hc : (c.tag == tg) = true
    · have hgc : ((g c).tag == tg) = true := by
        rw [hg c]
        exact hc
      simp [updateFirstTagged, hc, List.find?_cons_of_pos, hgc]
    · have hc2 : (c.tag == tg) = false := by
        cases hcc : (c.tag == tg)
        · rfl
        · exact absurd hcc hc
      simp [updateFirstTagged, hc2, List.find?_cons_of_neg, ih]

theorem namedChild_updateNamedChild (root : Elem) (tg : String) (g : Elem → Elem)
    (hg : ∀ e, (g e).tag = e.tag) :
    namedChild (updateNamedChild root tg g) tg = (namedChild root tg).map g := by
  unfold updateNamedChild
  rw [namedChild_setChildren]
  exact updateFirstTagged_find root.children tg g hg

theorem namedChild_insertAfterWorldbody_fresh (root node : Elem)
    (h : hasChildTag root node.tag = false) :
    namedChild (insertAfterWorldbody root node) node.tag = some node := by
  have hall : ∀ c ∈ root.children, ¬ (c.tag == node.tag) = true := by
    simpa [hasChildTag, List.any_eq_false] using h
  unfold insertAfterWorldbody
  cases hidx : root.children.findIdx? (fun c => c.tag == "worldbody") with
  | none =>
    rw [namedChild_setChildren, List.find?_append]
    have h1 : root.children.find? (fun c => c.tag == node.tag) = none := by
      rw [List.find?_eq_none]
      exact hall
    simp [h1]
  | some i =>
    rw [namedChild_setChildren, List.find?_append]
    have h1 : (root.children.take (i + 1)).find? (fun c => c.tag == node.tag) = none := by
      rw [List.find?_eq_none]
      intro c hc
      exact hall c (List.take_subset (i + 1) root.children hc)
    simp [h1]

theorem Elem.tag_setChildren (a : Elem) (cs : List Elem) : (a.setChildren cs).tag = a.tag := by
  cases a with
  | mk t at2 tx cs0 => rfl

theorem hasChildTag_eq_isSome (root : Elem) (tg : String) :
    hasChildTag root tg = (namedChild root tg).isSome := by
  cases hf : root.children.find? (fun c => c.tag == tg) with
  | none =>
    have hnone : ∀ c ∈ root.children, ¬ (c.tag == tg) = true := List.find?_eq_none.mp hf
    simp only [hasChildTag, namedChild, hf, Option.isSome_none]
    exact List.any_eq_false.mpr hnone
  | some a =>
    have hmem := List.mem_of_find?_eq_some hf
    have hpa := List.find?_some hf
    simp only [hasChildTag, namedChild, hf, Option.isSome_some]
    exact List.any_eq_true.mpr ⟨a, hmem, hpa⟩

theorem actuatorElem_get (joint : Elem) (jname tag : String) (us : Bool)
    (gains : String × String) :
    (actuatorElem joint jname tag us gains).tag = tag ∧
    (actuatorElem joint jname tag us gains).get "name" =
      some (if us then jname ++ "_" ++ tag else jname) ∧
    (actuatorElem joint jname tag us gains).get "joint" = some jname ∧
    (tag = "position" → (actuatorElem joint jname tag us gains).get "kp" = some gains.1) ∧
    (tag = "velocity" → (actuatorElem joint jname tag us gains).get "kv" = some gains.2) := by
  refine ⟨rfl, ?_, ?_, ?_, ?_⟩
  · cases us <;> simp [actuatorElem, Elem.get, Elem.attrib, dictGet_cons]
  · simp [actuatorElem, Elem.get, Elem.attrib, dictGet_cons]
  · intro ht
    subst ht
    simp [actuatorElem, Elem.get, Elem.attrib, dictGet_cons]
  · intro ht
    subst ht
    simp [actuatorElem, Elem.get, Elem.attrib, dictGet_cons]

theorem jointActuatorBlock_spec (joint : Elem) (jm : List (String × List String))
    (mn : List String) (gains : String × String) (force : Bool) (inst : String)
    (jname : String) (K : List String)
    (hname : joint.get "name" = some jname) (hne : (jname == "") = false)
    (hK : lookupIfaces jm jname = some K) :
    (jointActuatorBlock joint jm mn false gains force inst).length =
      ((if K.contains "position" then 1 else 0) + (if K.contains "velocity" then 1 else 0)) ∧
    ∀ a ∈ jointActuatorBlock joint jm mn false gains force inst,
      (a.tag = "position" ∨ a.tag = "velocity") ∧
      a.get "joint" = some jname ∧
      a.get "name" = some (if (K.contains "position" && K.contains "velocity") || force then
        jname ++ "_" ++ a.tag else jname) ∧
      (a.tag = "position" → a.get "kp" = some gains.1) ∧
      (a.tag = "velocity" → a.get "kv" = some gains.2) := by
  have hblk : jointActuatorBlock joint jm mn false gains force inst =
      (jointActuatorTags K).map (fun tag => actuatorElem joint jname tag
        (decide ((jointActuatorTags K).length > 1) || force) gains) := by
    by_cases ht : (jointActuatorTags K).isEmpty
    · have he : jointActuatorTags K = [] := by
        cases hj : jointActuatorTags K
        · rfl
        · rw [hj] at ht
          simp at ht
      simp [jointActuatorBlock, hname, hne, hK, he]
    · have ht2 : (jointActuatorTags K).isEmpty = false := by
        cases hj : (jointActuatorTags K).isEmpty
        · rfl
        · exact absurd hj ht
      simp [jointActuatorBlock, hname, hne, hK, ht2]
  rw [hblk]
  cases hp : K.contains "position" <;> cases hv : K.contains "velocity"
  · have hp2 : "position" ∉ K := by simpa using hp
    have hv2 : "velocity" ∉ K := by simpa using hv
    have htags : jointActuatorTags K = [] := by simp [jointActuatorTags, hp2, hv2]
    rw [htags]
    simp [hp, hv]
  · have hp2 : "position" ∉ K := by simpa using hp
    have hv2 : "velocity" ∈ K := by simpa using hv
    have htags : jointActuatorTags K = ["velocity"] := by simp [jointActuatorTags, hp2, hv2]
    rw [htags]
    have hus : (decide ((["velocity"] : List String).length > 1) || force) = force := by simp
    rw [hus]
    constructor
    · simp [hp, hv]
    · intro a ha
      simp only [List.map_cons, List.map_nil, List.mem_singleton] at ha
      subst ha
      obtain ⟨h1, h2, h3, h4, h5⟩ := actuatorElem_get joint jname "velocity" force gains
      rw [h1, h2]
      refine ⟨Or.inr rfl, h3, ?_, fun hq => absurd hq (by decide), fun _ => h5 rfl⟩
      simp [hp, hv]
  · have hp2 : "position" ∈ K := by simpa using hp
    have hv2 : "velocity" ∉ K := by simpa using hv
    have htags : jointActuatorTags K = ["position"] := by simp [jointActuatorTags, hp2, hv2]
    rw [htags]
    have hus : (decide ((["position"] : List String).length > 1) || force) = force := by simp
    rw [hus]
    constructor
    · simp [hp, hv]
    · intro a ha
      simp only [List.map_cons, List.map_nil, List.mem_singleton] at ha
      subst ha
      obtain ⟨h1, h2, h3, h4, h5⟩ := actuatorElem_get joint jname "position" force gains
      rw [h1, h2]
      refine ⟨Or.inl rfl, h3, ?_, fun _ => h4 rfl, fun hq => absurd hq (by decide)⟩
      simp [hp, hv]
  · have hp2 : "position" ∈ K := by simpa using hp
    have hv2 : "velocity" ∈ K := by simpa using hv
    have htags : jointActuatorTags K = ["position", "velocity"] := by
      simp [jointActuatorTags, hp2, hv2]
    rw [htags]
    have hus : (decide ((["position", "velocity"] : List String).length > 1) || force)
        = true := by simp
    rw [hus]
    constructor
    · simp [hp, hv]
    · intro a ha
      simp only [List.map_cons, List.map_nil, List.mem_cons, List.mem_singleton,
        List.not_mem_nil, or_false] at ha
      rcases ha with ha | ha <;> subst ha
      · obtain ⟨h1, h2, h3, h4, h5⟩ := actuatorElem_get joint jname "position" true gains
        rw [h1, h2]
        refine ⟨Or.inl rfl, h3, ?_, fun _ => h4 rfl, fun hq => absurd hq (by decide)⟩
        simp [hp, hv]
      · obtain ⟨h1, h2, h3, h4, h5⟩ := actuatorElem_get joint jname "velocity" true gains
        rw [h1, h2]
        refine ⟨Or.inr rfl, h3, ?_, fun hq => absurd hq (by decide), fun _ => h5 rfl⟩
        simp [hp, hv]

theorem Elem.children_setChildren (a : Elem) (cs : List Elem) :
    (a.setChildren cs).children = cs := by
  cases a with
  | mk t at2 tx cs0 => rfl

/-- C8: actuator synthesis naming and gains: with a `worldbody` present and a
non-empty joint map matching some joints, the actuator section of the result
consists of its previous children followed by, for each listed non-free joint
in document order, one actuator element per requested kind in
{position, velocity}; each element targets its joint, is named
`{joint}_{kind}` exactly when the joint requests both kinds or the
always-suffix policy is on (bare `{joint}` otherwise), and a position actuator
carries `kp` equal to the first default gain while a velocity actuator carries
`kv` equal to the second. -/
theorem actuator_synthesis (root : Elem) (jm : List (String × List String))
    (mn : List String) (gains : String × String) (force : Bool) (inst : String) (wb : Elem)
    (hwb : namedChild root "worldbody" = some wb)
    (hjm : jm.isEmpty = false)
    (hact : (actuatableJoints wb jm).isEmpty = false) :
    (∃ act : Elem,
      namedChild (postProcessAddActuators root jm mn false gains force inst) "actuator" =
        some act ∧
      act.tag = "actuator" ∧
      act.children =
        (match namedChild root "actuator" with
         | some a0 => a0.children
         | none => []) ++
        (actuatableJoints wb jm).flatMap
          (fun j => jointActuatorBlock j jm mn false gains force inst)) ∧
    (∀ j ∈ actuatableJoints wb jm, ∀ jname K, j.get "name" = some jname →
      (jname == "") = false → lookupIfaces jm jname = some K →
      (jointActuatorBlock j jm mn false gains force inst).length =
        ((if K.contains "position" then 1 else 0) + (if K.contains "velocity" then 1 else 0)) ∧
      ∀ a ∈ jointActuatorBlock j jm mn false gains force inst,
        (a.tag = "position" ∨ a.tag = "velocity") ∧
        a.get "joint" = some jname ∧
        a.get "name" = some (if (K.contains "position" && K.contains "velocity") || force then
          jname ++ "_" ++ a.tag else jname) ∧
        (a.tag = "position" → a.get "kp" = some gains.1) ∧
        (a.tag = "velocity" → a.get "kv" = some gains.2)) := by
  constructor
  · have hred : postProcessAddActuators root jm mn false gains force inst =
        updateNamedChild (if hasChildTag root "actuator" then root
          else insertAfterWorldbody root (Elem.mk "actuator" [] none [])) "actuator"
          (fun a => a.setChildren (a.children ++ (actuatableJoints wb jm).flatMap
            (fun j => jointActuatorBlock j jm mn false gains force inst))) := by
      unfold postProcessAddActuators
      rw [hwb]
      simp only [hjm, hact, Bool.false_eq_true, if_false]
    cases hhas : hasChildTag root "actuator"
    · have hnc : namedChild root "actuator" = none := hasChildTag_false_namedChild root _ hhas
      have hfresh : namedChild (insertAfterWorldbody root (Elem.mk "actuator" [] none []))
          "actuator" = some (Elem.mk "actuator" [] none []) :=
        namedChild_insertAfterWorldbody_fresh root (Elem.mk "actuator" [] none []) hhas
      rw [hred]
      simp only [hhas, Bool.false_eq_true, if_false]
      refine ⟨(Elem.mk "actuator" [] none []).setChildren
        ((Elem.mk "actuator" [] none []).children ++ (actuatableJoints wb jm).flatMap
          (fun j => jointActuatorBlock j jm mn false gains force inst)), ?_, ?_, ?_⟩
      · rw [namedChild_updateNamedChild _ _ _ (fun e => Elem.tag_setChildren e _), hfresh]
        rfl
      · rw [Elem.tag_setChildren]
        rfl
      · rw [Elem.children_setChildren, hnc]
        rfl
    · have h0 : (namedChild root "actuator").isSome = true := by
        rw [← hasChildTag_eq_isSome]
        exact hhas
      obtain ⟨a0, ha0⟩ := Option.isSome_iff_exists.mp h0
      rw [hred]
      simp only [hhas, if_true]
      refine ⟨a0.setChildren (a0.children ++ (actuatableJoints wb jm).flatMap
        (fun j => jointActuatorBlock j jm mn false gains force inst)), ?_, ?_, ?_⟩
      · rw [namedChild_updateNamedChild _ _ _ (fun e => Elem.tag_setChildren e _), ha0]
        rfl
      · rw [Elem.tag_setChildren]
        exact namedChild_some_tag root _ a0 ha0
      · rw [Elem.children_setChildren, ha0]
  · intro j hj jname K h1 h2 h3
    exact jointActuatorBlock_spec j jm mn gains force inst jname K h1 h2 h3

/-- The Scenario A joint `<joint name="hip"/>`. -/
def hipJoint : Elem := Elem.mk "joint" [("name", "hip")] none []

/-- The Scenario A worldbody. -/
def wbA : Elem := Elem.mk "worldbody" [] none [Elem.mk "body" [] none [hipJoint]]

/-- The Scenario A target tree. -/
def rootA : Elem := Elem.mk "mujoco" [] none [wbA]

/-- The Scenario A interface map `{"hip": {"position"}}`. -/
def jmA : List (String × List String) := [("hip", ["position"])]

/-- Witness for C8 at the Scenario A inputs: interface map
`{"hip": {"position"}}`, default gains `("500.0", "1.0")`, suffix policy off;
the final conjunct checks the exact output — one
`<position name="hip" joint="hip" kp="500.0"/>` under the actuator section. -/
theorem actuator_synthesis_witness :
    (namedChild rootA "worldbody" = some wbA) ∧
    (jmA.isEmpty = false) ∧
    ((actuatableJoints wbA jmA).isEmpty = false) ∧
    ((∃ act : Elem,
      namedChild (postProcessAddActuators rootA jmA [] false ("500.0", "1.0") false "")
          "actuator" = some act ∧
      act.tag = "actuator" ∧
      act.children =
        (match namedChild rootA "actuator" with
         | some a0 => a0.children
         | none => []) ++
        (actuatableJoints wbA jmA).flatMap
          (fun j => jointActuatorBlock j jmA [] false ("500.0", "1.0") false "")) ∧
    (∀ j ∈ actuatableJoints wbA jmA, ∀ jname K, j.get "name" = some jname →
      (jname == "") = false → lookupIfaces jmA jname = some K →
      (jointActuatorBlock j jmA [] false ("500.0", "1.0") false "").length =
        ((if K.contains "position" then 1 else 0) + (if K.contains "velocity" then 1 else 0)) ∧
      ∀ a ∈ jointActuatorBlock j jmA [] false ("500.0", "1.0") false "",
        (a.tag = "position" ∨ a.tag = "velocity") ∧
        a.get "joint" = some jname ∧
        a.get "name" = some (if (K.contains "position" && K.contains "velocity") || false then
          jname ++ "_" ++ a.tag else jname) ∧
        (a.tag = "position" → a.get "kp" = some ("500.0", "1.0").1) ∧
        (a.tag = "velocity" → a.get "kv" = some ("500.0", "1.0").2))) ∧
    postProcessAddActuators rootA jmA [] false ("500.0", "1.0") false "" =
      Elem.mk "mujoco" [] none
        [wbA,
         Elem.mk "actuator" [] none
           [Elem.mk "position" [("name", "hip"), ("joint", "hip"), ("kp", "500.0")] none []]] :=
  ⟨rfl, rfl, rfl,
    actuator_synthesis rootA jmA [] ("500.0", "1.0") false "" wbA rfl rfl rfl, rfl⟩

/-! ### C9: mimic joint plugins -/

theorem namedChild_append_fresh (root node : Elem)
    (h : hasChildTag root node.tag = false) :
    namedChild (root.setChildren (root.children ++ [node])) node.tag = some node := by
  have hall : ∀ c ∈ root.children, ¬ (c.tag == node.tag) = true := by
    simpa [hasChildTag, List.any_eq_false] using h
  rw [namedChild_setChildren, List.find?_append]
  have h1 : root.children.find? (fun c => c.tag == node.tag) = none := by
    rw [List.find?_eq_none]
    exact hall
  simp [h1]

theorem mimicStep_spec (root : Elem) (jname : String) (info : MimicInfo)
    (names : List String) (gains : String × String) (act0 : Elem)
    (h0 : namedChild root "actuator" = some act0) :
    ∃ ext act1,
      namedChild (mimicStep root jname info names gains).1 "actuator" = some act1 ∧
      act1.tag = act0.tag ∧
      act1.children = act0.children ++ ext ∧
      (∃ a ∈ act1.children, a.tag = "position" ∧ a.get "joint" = some jname) ∧
      (∃ pl ∈ act1.children, pl.tag = "plugin" ∧
        pl.get "plugin" = some "MujocoRosUtils::MimicJoint" ∧
        pl.get "joint" = some jname ∧
        pl.children = mimicPluginChildren info) := by
  have hg : ∀ (cs2 : List Elem) (e : Elem), (e.setChildren cs2).tag = e.tag :=
    fun cs2 e => Elem.tag_setChildren e cs2
  cases hpos : hasPositionFor root jname
  · -- no position actuator yet: one is synthesized, then the plugin appended
    have hstep : (mimicStep root jname info names gains).1 =
        updateNamedChild
          (updateNamedChild root "actuator"
            (fun a => a.setChildren (a.children ++
              [Elem.mk "position"
                (mimicPosAttrs root jname
                  (if names.contains jname then jname ++ "_position" else jname) gains)
                none []])))
          "actuator" (fun a => a.setChildren (a.children ++
            [Elem.mk "plugin" [("plugin", "MujocoRosUtils::MimicJoint"), ("joint", jname)]
              none (mimicPluginChildren info)])) := by
      simp only [mimicStep, hpos, Bool.false_eq_true, if_false]
    rw [hstep]
    rw [namedChild_updateNamedChild _ _ _ (fun e => Elem.tag_setChildren e _)]
    rw [namedChild_updateNamedChild _ _ _ (fun e => Elem.tag_setChildren e _), h0]
    refine ⟨[Elem.mk "position"
        (mimicPosAttrs root jname
          (if names.contains jname then jname ++ "_position" else jname) gains) none [],
      Elem.mk "plugin" [("plugin", "MujocoRosUtils::MimicJoint"), ("joint", jname)]
        none (mimicPluginChildren info)], _, rfl, ?_, ?_, ?_, ?_⟩
    · rw [Elem.tag_setChildren, Elem.tag_setChildren]
    · rw [Elem.children_setChildren, Elem.children_setChildren]
      simp
    · refine ⟨Elem.mk "position"
        (mimicPosAttrs root jname
          (if names.contains jname then jname ++ "_position" else jname) gains) none [],
        ?_, rfl, ?_⟩
      · rw [Elem.children_setChildren, Elem.children_setChildren]
        simp
      · simp [Elem.get, Elem.attrib, mimicPosAttrs, dictGet_cons]
    · refine ⟨Elem.mk "plugin" [("plugin", "MujocoRosUtils::MimicJoint"), ("joint", jname)]
        none (mimicPluginChildren info), ?_, rfl, rfl, ?_, rfl⟩
      · rw [Elem.children_setChildren]
        simp
      · simp [Elem.get, Elem.attrib, dictGet_cons]
  · -- a position actuator already exists: only the plugin is appended
    have hstep : (mimicStep root jname info names gains).1 =
        updateNamedChild root "actuator" (fun a => a.setChildren (a.children ++
          [Elem.mk "plugin" [("plugin", "MujocoRosUtils::MimicJoint"), ("joint", jname)]
            none (mimicPluginChildren info)])) := by
      simp only [mimicStep, hpos, if_true]
    rw [hstep]
    rw [namedChild_updateNamedChild _ _ _ (fun e => Elem.tag_setChildren e _), h0]
    have hex : ∃ a ∈ act0.children,
        (a.tag == "position" && a.get "joint" == some jname) = true := by
      have hpos2 := hpos
      unfold hasPositionFor at hpos2
      rw [h0] at hpos2
      exact List.any_eq_true.mp hpos2
    obtain ⟨a, ham, hpa⟩ := hex
    rw [Bool.and_eq_true, beq_iff_eq, beq_iff_eq] at hpa
    refine ⟨[Elem.mk "plugin" [("plugin", "MujocoRosUtils::MimicJoint"), ("joint", jname)]
        none (mimicPluginChildren info)], _, rfl, ?_, ?_, ?_, ?_⟩
    · rw [Elem.tag_setChildren]
    · rw [Elem.children_setChildren]
    · refine ⟨a, ?_, hpa.1, hpa.2⟩
      rw [Elem.children_setChildren]
      exact List.mem_append_left _ ham
    · refine ⟨Elem.mk "plugin" [("plugin", "MujocoRosUtils::MimicJoint"), ("joint", jname)]
        none (mimicPluginChildren info), ?_, rfl, rfl, ?_, rfl⟩
      · rw [Elem.children_setChildren]
        simp
      · simp [Elem.get, Elem.attrib, dictGet_cons]

theorem mimicLoop_extends (gains : String × String) : ∀ (entries : List (String × MimicInfo))
    (r : Elem) (names : List String) (act0 : Elem),
    namedChild r "actuator" = some act0 →
    ∃ ext act1, namedChild (mimicLoop r entries names gains) "actuator" = some act1 ∧
      act1.tag = act0.tag ∧ act1.children = act0.children ++ ext := by
  intro entries
  induction entries with
  | nil =>
    intro r names act0 h0
    exact ⟨[], act0, by simpa [mimicLoop] using h0, rfl, by simp⟩
  | cons e rest ih =>
    intro r names act0 h0
    obtain ⟨j0, i0⟩ := e
    obtain ⟨ext1, act2, h2, htag2, hch2, _, _⟩ := mimicStep_spec r j0 i0 names gains act0 h0
    obtain ⟨ext2, act3, h3, htag3, hch3⟩ :=
      ih (mimicStep r j0 i0 names gains).1 (mimicStep r j0 i0 names gains).2 act2 h2
    refine ⟨ext1 ++ ext2, act3, ?_, htag3.trans htag2, ?_⟩
    · simpa [mimicLoop] using h3
    · rw [hch3, hch2]
      simp

theorem mimicLoop_props (gains : String × String) : ∀ (entries : List (String × MimicInfo))
    (r : Elem) (names : List String) (act0 : Elem),
    namedChild r "actuator" = some act0 →
    ∀ jname info, (jname, info) ∈ entries →
    ∃ act1, namedChild (mimicLoop r entries names gains) "actuator" = some act1 ∧
      (∃ a ∈ act1.children, a.tag = "position" ∧ a.get "joint" = some jname) ∧
      (∃ pl ∈ act1.children, pl.tag = "plugin" ∧
        pl.get "plugin" = some "MujocoRosUtils::MimicJoint" ∧
        pl.get "joint" = some jname ∧ pl.children = mimicPluginChildren info) := by
  intro entries
  induction entries with
  | nil =>
    intro r names act0 h0 jname info hmem
    simp at hmem
  | cons e rest ih =>
    intro r names act0 h0 jname info hmem
    obtain ⟨j0, i0⟩ := e
    rcases List.mem_cons.mp hmem with hhead | htail
    · obtain ⟨hj, hi⟩ := Prod.mk.inj hhead
      subst hj
      subst hi
      obtain ⟨ext1, act2, h2, htag2, hch2, hposp, hplug⟩ :=
        mimicStep_spec r jname info names gains act0 h0
      obtain ⟨ext2, act3, h3, htag3, hch3⟩ :=
        mimicLoop_extends gains rest (mimicStep r jname info names gains).1
          (mimicStep r jname info names gains).2 act2 h2
      refine ⟨act3, by simpa [mimicLoop] using h3, ?_, ?_⟩
      · obtain ⟨a, ham, h1, h2j⟩ := hposp
        exact ⟨a, by rw [hch3]; exact List.mem_append_left _ ham, h1, h2j⟩
      · obtain ⟨pl, plm, p1, p2, p3, p4⟩ := hplug
        exact ⟨pl, by rw [hch3]; exact List.mem_append_left _ plm, p1, p2, p3, p4⟩
    · obtain ⟨ext1, act2, h2, _, _, _, _⟩ := mimicStep_spec r j0 i0 names gains act0 h0
      obtain ⟨act1, h1, hp1, hp2⟩ :=
        ih (mimicStep r j0 i0 names gains).1 (mimicStep r j0 i0 names gains).2 act2 h2
          jname info htail
      exact ⟨act1, by simpa [mimicLoop] using h1, hp1, hp2⟩

theorem namedChild_ensureActuatorSection (r2 : Elem) :
    ∃ act0, namedChild (ensureActuatorSection r2) "actuator" = some act0 := by
  unfold ensureActuatorSection
  cases hhas : hasChildTag r2 "actuator"
  · cases hwb : hasChildTag r2 "worldbody"
    · rw [if_neg Bool.false_ne_true, if_neg Bool.false_ne_true]
      exact ⟨_, namedChild_append_fresh r2 (Elem.mk "actuator" [] none []) hhas⟩
    · rw [if_neg Bool.false_ne_true, if_pos rfl]
      exact ⟨_, namedChild_insertAfterWorldbody_fresh r2 (Elem.mk "actuator" [] none []) hhas⟩
  · rw [if_pos rfl]
    have hs : (namedChild r2 "actuator").isSome = true := by
      rw [← hasChildTag_eq_isSome]
      exact hhas
    exact Option.isSome_iff_exists.mp hs

theorem namedChild_mimicSetup (root : Elem) :
    ∃ act0, namedChild (mimicSetup root) "actuator" = some act0 :=
  namedChild_ensureActuatorSection _

theorem mimicStep_synth_spec (r : Elem) (jn : String) (inf : MimicInfo)
    (names : List String) (gains : String × String) (act0 : Elem)
    (h0 : namedChild r "actuator" = some act0)
    (hpos : hasPositionFor r jn = false) :
    ∃ act1, namedChild (mimicStep r jn inf names gains).1 "actuator" = some act1 ∧
      ∃ a ∈ act1.children, a.tag = "position" ∧ a.get "joint" = some jn ∧
        a.get "name" = some (if names.contains jn then jn ++ "_position" else jn) ∧
        a.get "kp" = some gains.1 := by
  have hstep : (mimicStep r jn inf names gains).1 =
      updateNamedChild
        (updateNamedChild r "actuator"
          (fun a => a.setChildren (a.children ++
            [Elem.mk "position"
              (mimicPosAttrs r jn
                (if names.contains jn then jn ++ "_position" else jn) gains)
              none []])))
        "actuator" (fun a => a.setChildren (a.children ++
          [Elem.mk "plugin" [("plugin", "MujocoRosUtils::MimicJoint"), ("joint", jn)]
            none (mimicPluginChildren inf)])) := by
    simp only [mimicStep, hpos, Bool.false_eq_true, if_false]
  rw [hstep]
  rw [namedChild_updateNamedChild _ _ _ (fun e => Elem.tag_setChildren e _)]
  rw [namedChild_updateNamedChild _ _ _ (fun e => Elem.tag_setChildren e _), h0]
  refine ⟨_, rfl, ?_⟩
  refine ⟨Elem.mk "position"
      (mimicPosAttrs r jn (if names.contains jn then jn ++ "_position" else jn) gains)
      none [], ?_, rfl, ?_, ?_, ?_⟩
  · rw [Elem.children_setChildren, Elem.children_setChildren]
    simp
  · simp [Elem.get, Elem.attrib, mimicPosAttrs, dictGet_cons]
  · simp [Elem.get, Elem.attrib, mimicPosAttrs, dictGet_cons]
  · simp [Elem.get, Elem.attrib, mimicPosAttrs, dictGet_cons]

/-- C9: for every joint in the mimic-relation map, after
`post_process_add_mimic_plugins` the actuator section contains a position
actuator targeting that joint, and a `MimicJoint` plugin element is added
referencing the joint name, whose config children carry the leader joint,
the multiplier as gear, and an offset entry iff the offset is non-zero
(`mimicPluginChildren`); moreover, when no position actuator exists for the
joint, the per-entry step synthesizes one named with the bare joint name, or
with suffix `_position` when that name collides with an existing actuator
name, carrying `kp` from the first default gain. -/
theorem mimic_plugin_spec (root : Elem) (mimic : List (String × MimicInfo))
    (gains : String × String) :
    (∀ jname info, (jname, info) ∈ mimic →
      ∃ act1,
        namedChild (postProcessAddMimicPlugins root mimic gains) "actuator" = some act1 ∧
        (∃ a ∈ act1.children, a.tag = "position" ∧ a.get "joint" = some jname) ∧
        (∃ pl ∈ act1.children, pl.tag = "plugin" ∧
          pl.get "plugin" = some "MujocoRosUtils::MimicJoint" ∧
          pl.get "joint" = some jname ∧ pl.children = mimicPluginChildren info)) ∧
    (∀ (r : Elem) (names : List String) (jn : String) (inf : MimicInfo) (act0 : Elem),
      namedChild r "actuator" = some act0 → hasPositionFor r jn = false →
      ∃ act1, namedChild (mimicStep r jn inf names gains).1 "actuator" = some act1 ∧
        ∃ a ∈ act1.children, a.tag = "position" ∧ a.get "joint" = some jn ∧
          a.get "name" = some (if names.contains jn then jn ++ "_position" else jn) ∧
          a.get "kp" = some gains.1) := by
  constructor
  · intro jname info hmem
    have hne : mimic.isEmpty = false := by
      cases mimic with
      | nil => simp at hmem
      | cons e rest => rfl
    have hred : postProcessAddMimicPlugins root mimic gains =
        mimicLoop (mimicSetup root) mimic (actuatorNames (mimicSetup root)) gains := by
      unfold postProcessAddMimicPlugins
      rw [hne]
      rfl
    rw [hred]
    obtain ⟨act0, h0⟩ := namedChild_mimicSetup root
    exact mimicLoop_props gains mimic (mimicSetup root) (actuatorNames (mimicSetup root))
      act0 h0 jname info hmem
  · intro r names jn inf act0 h0 hpos
    exact mimicStep_synth_spec r jn inf names gains act0 h0 hpos

def posHipB : Elem :=
  Elem.mk "position" [("name", "hip"), ("joint", "hip"), ("kp", "500.0")] none []

def rootB : Elem := Elem.mk "mujoco" [] none
  [Elem.mk "worldbody" [] none [], Elem.mk "actuator" [] none [posHipB]]

def mimicInfoB : MimicInfo := ⟨"base", "1.0", some "0.0"⟩

theorem mimic_plugin_spec_witness :
    (("hip", mimicInfoB) ∈ [("hip", mimicInfoB)]) ∧
    (∃ act1,
      namedChild (postProcessAddMimicPlugins rootB [("hip", mimicInfoB)] ("500.0", "1.0"))
          "actuator" = some act1 ∧
      (∃ a ∈ act1.children, a.tag = "position" ∧ a.get "joint" = some "hip") ∧
      (∃ pl ∈ act1.children, pl.tag = "plugin" ∧
        pl.get "plugin" = some "MujocoRosUtils::MimicJoint" ∧
        pl.get "joint" = some "hip" ∧ pl.children = mimicPluginChildren mimicInfoB)) ∧
    mimicPluginChildren mimicInfoB =
      [Elem.mk "config" [("key", "mimic_joint"), ("value", "base")] none [],
       Elem.mk "config" [("key", "gear"), ("value", "1.0")] none []] :=
  ⟨List.mem_singleton.mpr rfl,
   (mimic_plugin_spec rootB [("hip", mimicInfoB)] ("500.0", "1.0")).1 "hip" mimicInfoB
     (List.mem_singleton.mpr rfl),
   rfl⟩

/-! ### C6: fragment-merge idempotence -/

theorem Elem.attrib_setChildren (a : Elem) (cs : List Elem) :
    (a.setChildren cs).attrib = a.attrib := by
  cases a with
  | mk t at2 tx cs0 => rfl

theorem Elem.text_setChildren (a : Elem) (cs : List Elem) :
    (a.setChildren cs).text = a.text := by
  cases a with
  | mk t at2 tx cs0 => rfl

/-- Unique attribute keys (an ElementTree attribute dict always has them). -/
def nodupKeysB : List (String × String) → Bool
  | [] => true
  | kv :: rest => !(rest.any (fun kv2 => kv2.1 == kv.1)) && nodupKeysB rest

/-- No two distinct elements of the list are shallow-equivalent. -/
def pairwiseNotShallow : List Elem → Bool
  | [] => true
  | c :: cs => !(cs.any (fun d => shallowEq c d)) && pairwiseNotShallow cs

mutual
/-- Merge well-formedness: unique attribute keys and pairwise
shallow-distinct siblings, at every level. -/
def wfE : Elem → Bool
  | .mk _ a _ cs => nodupKeysB a && pairwiseNotShallow cs && wfL cs
def wfL : List Elem → Bool
  | [] => true
  | c :: cs => wfE c && wfL cs
end

/-- The recursive self-merge the merger applies to a re-encountered child. -/
def selfMerge (c : Elem) : Elem := mergeInto c c

/-- A childless element (left in place by the merger). -/
def leafB (c : Elem) : Bool := c.children.isEmpty

theorem dictGet_mem (b : List (String × String)) (k v : String)
    (h : dictGet b k = some v) : (k, v) ∈ b := by
  unfold dictGet at h
  cases hf : b.find? (fun kv => kv.1 == k) with
  | none =>
    rw [hf] at h
    simp at h
  | some kv =>
    rw [hf] at h
    simp at h
    have hk : kv.1 = k := by simpa using List.find?_some hf
    have hm := List.mem_of_find?_eq_some hf
    have hkv : (k, v) = kv := by rw [← hk, ← h]
    rw [hkv]
    exact hm

theorem dictGet_self_of_nodup (d : List (String × String)) (hd : nodupKeysB d = true) :
    ∀ kv ∈ d, dictGet d kv.1 = some kv.2 := by
  induction d with
  | nil => intro kv hkv; simp at hkv
  | cons kv0 rest ih =>
    rw [nodupKeysB, Bool.and_eq_true] at hd
    rw [Bool.not_eq_true', List.any_eq_false] at hd
    intro kv hkv
    rcases List.mem_cons.mp hkv with hh | ht
    · subst hh
      rw [dictGet_cons]
      simp
    · have hne : ¬ kv.1 = kv0.1 := by
        intro he
        have hd1 := hd.1 kv ht
        simp [he] at hd1
      have hne2 : ¬ (kv0.1 == kv.1) = true := by
        simp only [beq_iff_eq]
        intro he
        exact hne he.symm
      rw [dictGet_cons, if_neg hne2]
      exact ih hd.2 kv ht

theorem dictEqB_refl (a : List (String × String)) (ha : nodupKeysB a = true) :
    dictEqB a a = true := by
  rw [dictEqB, Bool.and_eq_true, List.all_eq_true]
  constructor
  · intro kv hkv
    simp [dictGet_self_of_nodup a ha kv hkv]
  · intro kv hkv
    simp [dictGet_self_of_nodup a ha kv hkv]

theorem dictEqB_symm (a b : List (String × String)) (h : dictEqB a b = true) :
    dictEqB b a = true := by
  rw [dictEqB, Bool.and_eq_true] at h ⊢
  exact ⟨h.2, h.1⟩

theorem dictEqB_trans (a b c : List (String × String))
    (hab : dictEqB a b = true) (hbc : dictEqB b c = true) : dictEqB a c = true := by
  rw [dictEqB, Bool.and_eq_true, List.all_eq_true, List.all_eq_true] at hab hbc ⊢
  constructor
  · intro kv hkv
    have h1 : dictGet b kv.1 = some kv.2 := by simpa using hab.1 kv hkv
    have h2 : (kv.1, kv.2) ∈ b := dictGet_mem b kv.1 kv.2 h1
    simpa using hbc.1 (kv.1, kv.2) h2
  · intro kv hkv
    have h1 : dictGet b kv.1 = some kv.2 := by simpa using hbc.2 kv hkv
    have h2 : (kv.1, kv.2) ∈ b := dictGet_mem b kv.1 kv.2 h1
    simpa using hab.2 (kv.1, kv.2) h2

theorem shallowEq_refl (c : Elem) (hc : nodupKeysB c.attrib = true) :
    shallowEq c c = true := by
  rw [shallowEq, Bool.and_eq_true, Bool.and_eq_true]
  exact ⟨⟨by simp, dictEqB_refl c.attrib hc⟩, by simp⟩

theorem shallowEq_symm (a b : Elem) (h : shallowEq a b = true) :
    shallowEq b a = true := by
  rw [shallowEq, Bool.and_eq_true, Bool.and_eq_true, beq_iff_eq, beq_iff_eq] at h ⊢
  exact ⟨⟨h.1.1.symm, dictEqB_symm _ _ h.1.2⟩, h.2.symm⟩

theorem shallowEq_trans (a b c : Elem) (hab : shallowEq a b = true)
    (hbc : shallowEq b c = true) : shallowEq a c = true := by
  rw [shallowEq, Bool.and_eq_true, Bool.and_eq_true, beq_iff_eq, beq_iff_eq] at hab hbc ⊢
  exact ⟨⟨hab.1.1.trans hbc.1.1, dictEqB_trans _ _ _ hab.1.2 hbc.1.2⟩, hab.2.trans hbc.2⟩

theorem wfE_mk (t : String) (a : List (String × String)) (tx : Option String)
    (cs : List Elem) :
    wfE (Elem.mk t a tx cs) = (nodupKeysB a && pairwiseNotShallow cs && wfL cs) := rfl

theorem wfL_nil : wfL [] = true := rfl

theorem wfL_cons (c : Elem) (cs : List Elem) : wfL (c :: cs) = (wfE c && wfL cs) := rfl

theorem pairwiseNotShallow_pairwise (cs : List Elem)
    (h : pairwiseNotShallow cs = true) :
    List.Pairwise (fun x y => shallowEq x y = false) cs := by
  induction cs with
  | nil => exact List.Pairwise.nil
  | cons c rest ih =>
    rw [pairwiseNotShallow, Bool.and_eq_true] at h
    rw [Bool.not_eq_true', List.any_eq_false] at h
    refine List.Pairwise.cons ?_ (ih h.2)
    intro d hd
    have h1 := h.1 d hd
    simpa using h1

theorem wfE_parts (t : String) (a : List (String × String)) (tx : Option String)
    (cs : List Elem) (h : wfE (Elem.mk t a tx cs) = true) :
    nodupKeysB a = true ∧ List.Pairwise (fun x y => shallowEq x y = false) cs ∧
    wfL cs = true := by
  rw [wfE_mk, Bool.and_eq_true, Bool.and_eq_true] at h
  exact ⟨h.1.1, pairwiseNotShallow_pairwise cs h.1.2, h.2⟩

theorem wfE_nodup (c : Elem) (h : wfE c = true) : nodupKeysB c.attrib = true := by
  cases c with
  | mk t a tx cs => exact (wfE_parts t a tx cs h).1

theorem wfL_mem (cs : List Elem) (h : wfL cs = true) : ∀ c ∈ cs, wfE c = true := by
  induction cs with
  | nil => intro c hc; simp at hc
  | cons c0 rest ih =>
    rw [wfL_cons, Bool.and_eq_true] at h
    intro c hc
    rcases List.mem_cons.mp hc with hh | ht
    · subst hh
      exact h.1
    · exact ih h.2 c ht

theorem sizeE_mem_le (cs : List Elem) (x : Elem) (hx : x ∈ cs) : sizeE x ≤ sizeL cs := by
  induction cs with
  | nil => simp at hx
  | cons c rest ih =>
    rcases List.mem_cons.mp hx with hh | ht
    · subst hh
      simp only [sizeL]
      omega
    · have h1 := ih ht
      have h2 := sizeE_pos c
      simp only [sizeL]
      omega

theorem splitAtShallowEq_prefix (c : Elem) : ∀ (D : List Elem), ∀ (T : List Elem),
    (∀ x ∈ D, shallowEq x c = false) → shallowEq c c = true →
    splitAtShallowEq c (D ++ c :: T) = some (D, c, T) := by
  intro D
  induction D with
  | nil =>
    intro T hD hc
    simp [splitAtShallowEq, hc]
  | cons x D ih =>
    intro T hD hc
    have hx : shallowEq x c = false := hD x (by simp)
    have ih2 := ih T (fun y hy => hD y (by simp [hy])) hc
    simp [splitAtShallowEq, hx, ih2]

theorem extractEqv_split (d c : Elem) : ∀ (P : List Elem), ∀ (S : List Elem),
    (∀ x ∈ P, eqv d x = false) → eqv d c = true →
    extractEqv d (P ++ c :: S) = some (P ++ S) := by
  intro P
  induction P with
  | nil =>
    intro S hP hc
    simp [extractEqv, hc]
  | cons x P ih =>
    intro S hP hc
    have hx : eqv d x = false := hP x (by simp)
    have ih2 := ih S (fun y hy => hP y (by simp [hy])) hc
    simp [extractEqv, hx, ih2]

theorem eqv_imp_shallowEq (a b : Elem) (h : eqv a b = true) : shallowEq a b = true := by
  unfold eqv at h
  rw [Bool.and_eq_true] at h
  rw [shallowEq]
  exact h.1

theorem eqv_refl_aux : ∀ n : Nat,
    (∀ x, sizeE x ≤ n → wfE x = true → eqv x x = true) ∧
    (∀ xs, sizeL xs ≤ n → wfL xs = true → eqvChildren xs xs = true) := by
  intro n
  induction n with
  | zero =>
    constructor
    · intro x hx hwf
      have h1 := sizeE_pos x
      omega
    · intro xs hxs hwf
      cases xs with
      | nil => simp [eqvChildren]
      | cons c rest =>
        have h1 := sizeE_pos c
        simp only [sizeL] at hxs
        omega
  | succ n ih =>
    have hfst : ∀ x, sizeE x ≤ n + 1 → wfE x = true → eqv x x = true := by
      intro x hx hwf
      cases x with
      | mk t a tx cs =>
        obtain ⟨hnodup, hpair, hwfl⟩ := wfE_parts t a tx cs hwf
        have hcs : sizeL cs ≤ n := by
          simp only [sizeE] at hx
          omega
        unfold eqv
        rw [Bool.and_eq_true, Bool.and_eq_true, Bool.and_eq_true]
        refine ⟨⟨⟨by simp [Elem.tag], ?_⟩, by simp⟩, ?_⟩
        · exact dictEqB_refl a hnodup
        · exact ih.2 cs hcs hwfl
    refine ⟨hfst, ?_⟩
    intro xs hxs hwf
    cases xs with
    | nil => simp [eqvChildren]
    | cons c rest =>
      rw [wfL_cons, Bool.and_eq_true] at hwf
      have hc : sizeE c ≤ n + 1 := by
        simp only [sizeL] at hxs
        omega
      have hrest : sizeL rest ≤ n := by
        have h1 := sizeE_pos c
        simp only [sizeL] at hxs
        omega
      have hcc : eqv c c = true := hfst c hc hwf.1
      have hext : extractEqv c (c :: rest) = some rest := by
        simp [extractEqv, hcc]
      have hred : eqvChildren (c :: rest) (c :: rest) = eqvChildren rest rest := by
        simp [eqvChildren, hext]
      rw [hred]
      exact ih.2 rest hrest hwf.2

theorem eqv_refl (x : Elem) (h : wfE x = true) : eqv x x = true :=
  (eqv_refl_aux (sizeE x)).1 x (le_refl _) h

theorem forall2Append {R : Elem → Elem → Prop} : ∀ (a : List Elem), ∀ (b c d : List Elem),
    List.Forall₂ R a b → List.Forall₂ R c d → List.Forall₂ R (a ++ c) (b ++ d) := by
  intro a
  induction a with
  | nil =>
    intro b c d h1 h2
    cases h1
    simpa using h2
  | cons x a ih =>
    intro b c d h1 h2
    cases h1 with
    | cons hx hrest =>
      exact List.Forall₂.cons hx (ih _ c d hrest h2)

theorem forall2MapSelf {R : Elem → Elem → Prop} (f : Elem → Elem) :
    ∀ (l : List Elem), (∀ x ∈ l, R (f x) x) → List.Forall₂ R (l.map f) l := by
  intro l
  induction l with
  | nil =>
    intro h
    simp
  | cons x l ih =>
    intro h
    exact List.Forall₂.cons (h x (by simp)) (ih (fun y hy => h y (by simp [hy])))

theorem Elem.children_mk (t : String) (a : List (String × String)) (tx : Option String)
    (cs : List Elem) : (Elem.mk t a tx cs).children = cs := rfl

theorem Elem.setChildren_mk (t : String) (a : List (String × String)) (tx : Option String)
    (cs0 cs : List Elem) : (Elem.mk t a tx cs0).setChildren cs = Elem.mk t a tx cs := rfl

theorem mergeChildren_invariant (t : String) (a : List (String × String))
    (tx : Option String) : ∀ (rest D M : List Elem),
    (∀ x ∈ D, ∀ c ∈ rest, shallowEq x c = false) →
    (∀ c ∈ rest, shallowEq c c = true) →
    List.Pairwise (fun x y => shallowEq x y = false) rest →
    mergeChildren (Elem.mk t a tx (D ++ rest ++ M)) rest =
      Elem.mk t a tx ((D ++ rest.filter (fun x => x.children.isEmpty)) ++
        (M ++ (rest.filter (fun x => !x.children.isEmpty)).map selfMerge)) := by
  intro rest
  induction rest with
  | nil =>
    intro D M hD hrefl hpair
    simp [mergeChildren]
  | cons c rest ih =>
    intro D M hD hrefl hpair
    have hsp := splitAtShallowEq_prefix c D (rest ++ M)
      (fun x hx => hD x hx c (by simp)) (hrefl c (by simp))
    have hpair2 := List.pairwise_cons.mp hpair
    by_cases hleaf : c.children.isEmpty = true
    · have ih2 := ih (D ++ [c]) M
        (fun x hx d hd => by
          rcases List.mem_append.mp hx with hxD | hxc
          · exact hD x hxD d (by simp [hd])
          · have hxc2 : x = c := by simpa using hxc
            subst hxc2
            exact hpair2.1 d hd)
        (fun d hd => hrefl d (by simp [hd])) hpair2.2
      calc mergeChildren (Elem.mk t a tx (D ++ (c :: rest) ++ M)) (c :: rest)
          = mergeChildren (Elem.mk t a tx ((D ++ [c]) ++ rest ++ M)) rest := by
            conv_lhs => rw [mergeChildren]
            simp [hsp, hleaf, Elem.children_mk, Elem.setChildren_mk]
        _ = _ := by
            rw [ih2]
            simp [hleaf]
    · have hleaf2 : c.children.isEmpty = false := by
        cases h2 : c.children.isEmpty
        · rfl
        · exact absurd h2 hleaf
      have ih2 := ih D (M ++ [selfMerge c])
        (fun x hx d hd => hD x hx d (by simp [hd]))
        (fun d hd => hrefl d (by simp [hd])) hpair2.2
      calc mergeChildren (Elem.mk t a tx (D ++ (c :: rest) ++ M)) (c :: rest)
          = mergeChildren (Elem.mk t a tx (D ++ rest ++ (M ++ [selfMerge c]))) rest := by
            conv_lhs => rw [mergeChildren]
            simp [hsp, hleaf2, selfMerge, mergeInto, Elem.children_mk, Elem.setChildren_mk]
        _ = _ := by
            rw [ih2]
            simp [hleaf2]

theorem eqvChildren_perm : ∀ (ds cs cs2 : List Elem),
    List.Perm cs cs2 → List.Forall₂ (fun d c => eqv d c = true) ds cs2 →
    List.Pairwise (fun x y => shallowEq x y = false) cs →
    eqvChildren ds cs = true := by
  intro ds
  induction ds with
  | nil =>
    intro cs cs2 hperm hf hpair
    cases hf
    have hnil : cs = [] := List.Perm.eq_nil hperm
    subst hnil
    simp [eqvChildren]
  | cons d ds ih =>
    intro cs cs2 hperm hf hpair
    cases hf with
    | cons hdc hrest =>
      rename_i c cs3
      have hc_mem : c ∈ cs := hperm.mem_iff.mpr (List.mem_cons_self c cs3)
      obtain ⟨P, S, hPS⟩ := List.append_of_mem hc_mem
      subst hPS
      have hpairP := List.pairwise_append.mp hpair
      have hPfalse : ∀ x ∈ P, eqv d x = false := by
        intro x hx
        cases he : eqv d x
        · rfl
        · exfalso
          have h1 : shallowEq d x = true := eqv_imp_shallowEq d x he
          have h2 : shallowEq d c = true := eqv_imp_shallowEq d c hdc
          have h3 : shallowEq x c = true := shallowEq_trans x d c (shallowEq_symm d x h1) h2
          have h4 : shallowEq x c = false := hpairP.2.2 x hx c (by simp)
          rw [h3] at h4
          simp at h4
      have hext : extractEqv d (P ++ c :: S) = some (P ++ S) :=
        extractEqv_split d c P S hPfalse hdc
      have hred : eqvChildren (d :: ds) (P ++ c :: S) = eqvChildren ds (P ++ S) := by
        simp [eqvChildren, hext]
      rw [hred]
      apply ih (P ++ S) cs3 ?_ hrest ?_
      · exact (List.perm_middle.symm.trans hperm).cons_inv
      · have hsub : List.Sublist (P ++ S) (P ++ c :: S) :=
          (List.sublist_cons_self c S).append_left P
        exact List.Pairwise.sublist hsub hpair

theorem mergeSelf_eqv_aux : ∀ n : Nat, ∀ f, sizeE f ≤ n → wfE f = true →
    eqv (mergeInto f f) f = true := by
  intro n
  induction n with
  | zero =>
    intro f hf hwf
    have h1 := sizeE_pos f
    omega
  | succ n ih =>
    intro f hf hwf
    cases f with
    | mk t a tx cs =>
      obtain ⟨hnodup, hpair, hwfl⟩ := wfE_parts t a tx cs hwf
      have hcs : sizeL cs ≤ n := by
        simp only [sizeE] at hf
        omega
      have hrefl : ∀ c ∈ cs, shallowEq c c = true := fun c hc =>
        shallowEq_refl c (wfE_nodup c (wfL_mem cs hwfl c hc))
      have hmerge : mergeInto (Elem.mk t a tx cs) (Elem.mk t a tx cs) =
          Elem.mk t a tx (cs.filter (fun x => x.children.isEmpty) ++
            (cs.filter (fun x => !x.children.isEmpty)).map selfMerge) := by
        have h0 := mergeChildren_invariant t a tx cs [] []
          (by intro x hx d hd; simp at hx) hrefl hpair
        simpa [mergeInto, Elem.children_mk] using h0
      rw [hmerge]
      unfold eqv
      rw [Bool.and_eq_true, Bool.and_eq_true, Bool.and_eq_true]
      refine ⟨⟨⟨by simp [Elem.tag], ?_⟩, by simp [trimmedText, Elem.text]⟩, ?_⟩
      · exact dictEqB_refl a hnodup
      · have hforall : List.Forall₂ (fun d c => eqv d c = true)
            (cs.filter (fun x => x.children.isEmpty) ++
              (cs.filter (fun x => !x.children.isEmpty)).map selfMerge)
            (cs.filter (fun x => x.children.isEmpty) ++
              cs.filter (fun x => !x.children.isEmpty)) := by
          apply forall2Append
          · apply List.forall₂_same.mpr
            intro x hx
            have hxm : x ∈ cs := (List.mem_filter.mp hx).1
            exact eqv_refl x (wfL_mem cs hwfl x hxm)
          · apply forall2MapSelf
            intro x hx
            have hxm : x ∈ cs := (List.mem_filter.mp hx).1
            have hxsz : sizeE x ≤ n := le_trans (sizeE_mem_le cs x hxm) hcs
            exact ih x hxsz (wfL_mem cs hwfl x hxm)
        exact eqvChildren_perm _ cs
          (cs.filter (fun x => x.children.isEmpty) ++
            cs.filter (fun x => !x.children.isEmpty))
          (List.filter_append_perm _ cs).symm hforall hpair

/-- C6 (amended): merging a one-element fragment list returns the fragment
itself, and when the fragment is well-formed for merging - attribute keys are
unique and no two distinct siblings anywhere in the tree share tag, attribute
dict and trimmed text - merging the fragment with an identical copy of itself
yields a tree equal to it up to child reordering at every level. Without the
well-formedness condition the self-merge can duplicate a subtree (see the
counterexample). -/
theorem merge_idempotent_amended (f : Elem) (h : wfE f = true) :
    mergeNodesRecursively [f] = some f ∧
    ∃ m, mergeNodesRecursively [f, f] = some m ∧ eqv m f = true := by
  refine ⟨rfl, mergeInto f f, rfl, ?_⟩
  exact mergeSelf_eqv_aux (sizeE f) f (le_refl _) h

def fWf : Elem := Elem.mk "p" [("k", "v")] none
  [Elem.mk "c" [] none [Elem.mk "h" [] none []], Elem.mk "d" [] none []]

theorem merge_idempotent_amended_witness :
    wfE fWf = true ∧
    (mergeNodesRecursively [fWf] = some fWf ∧
     ∃ m, mergeNodesRecursively [fWf, fWf] = some m ∧ eqv m fWf = true) :=
  ⟨rfl, merge_idempotent_amended fWf rfl⟩

def fC6 : Elem := Elem.mk "p" [] none
  [Elem.mk "c" [] none [], Elem.mk "c" [] none [Elem.mk "h" [] none []]]

def mC6 : Elem := Elem.mk "p" [] none
  [Elem.mk "c" [] none [Elem.mk "h" [] none []],
   Elem.mk "c" [] none [Elem.mk "h" [] none []]]

/-- C6 counterexample: the fragment `<p><c/><c><h/></c></p>` merged with an
identical copy of itself yields `<p><c><h/></c><c><h/></c></p>` - the
childless `<c/>` is captured by the shallow match of the second `<c>` and the
`<h/>` subtree is duplicated - which is not equal to the fragment even up to
child reordering. -/
theorem merge_idempotent_counterexample :
    mergeNodesRecursively [fC6, fC6] = some mC6 ∧ eqv mC6 fC6 = false := by
  constructor
  · show some (mergeInto fC6 fC6) = some mC6
    simp [mergeInto, mergeChildren, splitAtShallowEq, shallowEq, dictEqB, trimmedText,
      fC6, mC6, Elem.tag, Elem.attrib, Elem.text, Elem.children, Elem.setChildren, dictGet]
  · simp [eqv, eqvChildren, extractEqv, dictEqB, trimmedText, fC6, mC6,
      Elem.tag, Elem.attrib, Elem.text, Elem.children, dictGet]
